import Mathlib

/-!
Verification development for the Unity Script Library (USL) installer core
(`src/usl.py`).  The Python functions are shallowly embedded as executable
Lean definitions over a finite-map model of the filesystem; machine state
(the installation transaction, the descriptor parser state, the dependency
resolver's visited set) is threaded explicitly.
-/

namespace USL

/-- A filesystem path, as a list of components. -/
abbrev FsPath := List String

/-- Index of the last occurrence of a character in a component name. -/
def lastIdxOf (c : Char) (cs : List Char) : Option Nat :=
  (List.range cs.length).foldl
    (fun acc i => if cs.get? i = some c then some i else acc) none

/-- The extension of a final path component, following `pathlib`:
the part of the name from its last dot, provided that dot is neither the
first nor the last character; empty otherwise. -/
def pySuffix (name : String) : String :=
  let cs := name.toList
  match lastIdxOf '.' cs with
  | some i => if 0 < i ∧ i < cs.length - 1 then ⟨cs.drop i⟩ else ""
  | none => ""

/-- The stem of a final path component (the name with `pySuffix` removed). -/
def pyStem (name : String) : String :=
  let cs := name.toList
  match lastIdxOf '.' cs with
  | some i => if 0 < i ∧ i < cs.length - 1 then ⟨cs.take i⟩ else name
  | none => name

/-- Models `pathlib.PurePath.with_suffix` on the last component of a path. -/
def withSuffixPath (p : FsPath) (suffix : String) : FsPath :=
  match p.getLast? with
  | some name => p.dropLast ++ [pyStem name ++ suffix]
  | none => p

/-- A scalar JSON value (string, number, boolean or null). -/
inductive JVal where
  | jstr (s : String)
  | jnum (n : Int)
  | jbool (b : Bool)
  | jnull
deriving DecidableEq, Repr

/-- A top-level manifest value: either a scalar or an object of scalars
(the shape the `dependencies` table has). -/
inductive MVal where
  | val (v : JVal)
  | tbl (m : List (String × JVal))
deriving DecidableEq, Repr

/-- A JSON manifest object: association list of top-level keys. -/
abbrev Manifest := List (String × MVal)

/-- Content of a file: ordinary text, a serialized JSON manifest, or the
truncated garbage left behind by an interrupted write. -/
inductive FContent where
  | text (s : String)
  | jmani (m : Manifest)
  | truncated
deriving DecidableEq, Repr

/-- Re-parsing a file as JSON (`json.load`): succeeds exactly on files whose
content is a serialized manifest. -/
def parseContent : FContent → Option Manifest
  | .jmani m => some m
  | _ => none

/-- The filesystem: a finite map from paths to file contents plus the set of
directories. -/
structure FS where
  files : List (FsPath × FContent)
  dirs : List FsPath
deriving DecidableEq, Repr

/-- Look up a file's content. -/
def FS.read (fs : FS) (p : FsPath) : Option FContent :=
  (fs.files.find? (fun e => e.1 = p)).map (·.2)

/-- Whether a file exists at `p`. -/
def FS.fileExists (fs : FS) (p : FsPath) : Bool :=
  (fs.read p).isSome

/-- Whether a directory exists at `p`. -/
def FS.dirExists (fs : FS) (p : FsPath) : Bool :=
  fs.dirs.contains p

/-- Whether anything exists at `p` (`Path.exists`). -/
def FS.pathExists (fs : FS) (p : FsPath) : Bool :=
  fs.fileExists p || fs.dirExists p

/-- Create or overwrite the file at `p` with content `c`. -/
def FS.writeFile (fs : FS) (p : FsPath) (c : FContent) : FS :=
  { fs with files := (p, c) :: fs.files.filter (fun e => ¬ e.1 = p) }

/-- Remove the file at `p` (`Path.unlink`). -/
def FS.deleteFile (fs : FS) (p : FsPath) : FS :=
  { fs with files := fs.files.filter (fun e => ¬ e.1 = p) }

/-- Move the file at `src` over `dst` (`os.replace` / `Path.replace`). -/
def FS.moveFile (fs : FS) (src dst : FsPath) : FS :=
  match fs.read src with
  | some c => (fs.deleteFile src).writeFile dst c
  | none => fs

/-- Add a directory. -/
def FS.mkdir (fs : FS) (p : FsPath) : FS :=
  if fs.dirExists p then fs else { fs with dirs := fs.dirs ++ [p] }

/-- Remove a directory (`Path.rmdir`). -/
def FS.rmdir (fs : FS) (p : FsPath) : FS :=
  { fs with dirs := fs.dirs.filter (fun d => ¬ d = p) }

/-- Whether `d` is a strict ancestor of the path `p`. -/
def strictUnder (d p : FsPath) : Bool :=
  d.isPrefixOf p && ¬ d = p

/-- Whether the directory `d` has at least one entry under it
(`any(dir_path.iterdir())`; on a real filesystem a deep entry forces an
immediate child to exist, so strict-ancestor containment is the faithful
model-level reading). -/
def FS.dirHasEntry (fs : FS) (d : FsPath) : Bool :=
  fs.files.any (fun e => strictUnder d e.1) || fs.dirs.any (fun p => strictUnder d p)

/-- State of `InstallationTransaction` (src/usl.py:72): the manifest path, its
backup sibling, the tracked `(dest, optional prior-content backup)` pairs in
registration order, the tracked directories in registration order, and the
committed flag. -/
structure Txn where
  manifestPath : FsPath
  backupPath : FsPath
  trackedFiles : List (FsPath × Option FsPath)
  trackedDirs : List FsPath
  committed : Bool
deriving DecidableEq, Repr

/-- `InstallationTransaction.__init__`: `backup_path = manifest_path.with_suffix(".backup")`. -/
def Txn.mk0 (manifestPath : FsPath) : Txn :=
  { manifestPath := manifestPath
    backupPath := withSuffixPath manifestPath ".backup"
    trackedFiles := []
    trackedDirs := []
    committed := false }

/-- `InstallationTransaction.__enter__`: back up the manifest if it exists
(`shutil.copy2`). -/
def enterTxn (fs : FS) (t : Txn) : FS :=
  if fs.fileExists t.manifestPath then
    match fs.read t.manifestPath with
    | some c => fs.writeFile t.backupPath c
    | none => fs
  else fs

/-- `InstallationTransaction.track_file_operation`. -/
def Txn.trackFile (t : Txn) (dest : FsPath) (originalBackup : Option FsPath) : Txn :=
  { t with trackedFiles := t.trackedFiles ++ [(dest, originalBackup)] }

/-- `InstallationTransaction.track_directory_creation` (duplicates coalesced). -/
def Txn.trackDir (t : Txn) (d : FsPath) : Txn :=
  if t.trackedDirs.contains d then t
  else { t with trackedDirs := t.trackedDirs ++ [d] }

/-- `InstallationTransaction.commit`: set the committed flag, delete the
manifest backup and all per-file prior-content backups, clear the tracking
lists. -/
def commitTxn (fs : FS) (t : Txn) : FS × Txn :=
  let fs := if fs.fileExists t.backupPath then fs.deleteFile t.backupPath else fs
  let fs := t.trackedFiles.foldl
    (fun fs e =>
      match e.2 with
      | some b => if fs.fileExists b then fs.deleteFile b else fs
      | none => fs)
    fs
  (fs, { t with committed := true, trackedFiles := [], trackedDirs := [] })

/-- One step of the tracked-file rollback loop (src/usl.py:140-153): restore
the prior-content backup if it exists, otherwise delete the destination if it
exists. -/
def fileRollbackStep (fs : FS) (e : FsPath × Option FsPath) : FS :=
  match e.2 with
  | some b =>
    if fs.fileExists b then fs.moveFile b e.1
    else if fs.fileExists e.1 then fs.deleteFile e.1 else fs
  | none =>
    if fs.fileExists e.1 then fs.deleteFile e.1 else fs

/-- One step of the tracked-directory rollback loop (src/usl.py:156-163):
remove the directory if it still exists and is empty. -/
def dirRollbackStep (fs : FS) (d : FsPath) : FS :=
  if fs.dirExists d then
    if fs.dirHasEntry d then fs else fs.rmdir d
  else fs

/-- The manifest-restore step of rollback (src/usl.py:133-137). -/
def manifestRollback (fs : FS) (t : Txn) : FS :=
  if fs.fileExists t.backupPath then
    let fs := if fs.fileExists t.manifestPath then fs.deleteFile t.manifestPath else fs
    fs.moveFile t.backupPath t.manifestPath
  else fs

/-- The tracked-file rollback loop: `for ... in reversed(self.tracked_files)`. -/
def rollbackFiles (fs : FS) (l : List (FsPath × Option FsPath)) : FS :=
  l.reverse.foldl fileRollbackStep fs

/-- The tracked-directory rollback loop: `for ... in reversed(self.tracked_dirs)`. -/
def rollbackDirs (fs : FS) (l : List FsPath) : FS :=
  l.reverse.foldl dirRollbackStep fs

/-- The body of the rollback branch of `InstallationTransaction.__exit__`:
restore the manifest backup, then undo tracked files in reverse registration
order, then remove still-empty tracked directories in reverse registration
order. -/
def rollbackFS (fs : FS) (t : Txn) : FS :=
  rollbackDirs (rollbackFiles (manifestRollback fs t) t.trackedFiles) t.trackedDirs

/-- `InstallationTransaction.__exit__`: roll back exactly when an exception
was raised and the transaction was not committed; always return `False`
(the exception is re-raised / propagates unchanged). -/
def exitTxn (excRaised : Bool) (fs : FS) (t : Txn) : FS × Bool :=
  (if excRaised ∧ ¬ t.committed then rollbackFS fs t else fs, false)

/-- Error raised by the manifest store (`ManifestError`), tagged by the
handler that produced it. -/
inductive ManiErr where
  | ioErr
  | jsonErr
deriving DecidableEq, Repr

/-- Fault-injection points for `write_manifest_atomic`: an `IOError` while
writing the temporary file (which may leave it truncated), a
`JSONDecodeError` while re-parsing it, or an `OSError` in `os.replace`. -/
structure WriteFaults where
  duringWrite : Bool
  duringParse : Bool
  duringReplace : Bool
deriving DecidableEq, Repr

/-- No injected faults. -/
def WriteFaults.none : WriteFaults := ⟨false, false, false⟩

/-- Models `write_manifest_atomic` (src/usl.py:316-349): serialize to the
`.tmp` sibling, re-parse it, then `os.replace` it over the target; on any
failure delete the temporary file and raise `ManifestError`.  Returns the
raised error (if any) together with the resulting filesystem. -/
def writeManifestAtomic (fs : FS) (manifestPath : FsPath) (m : Manifest)
    (faults : WriteFaults) : Option ManiErr × FS :=
  let tmp := withSuffixPath manifestPath ".tmp"
  if faults.duringWrite then
    -- `json.dump` raised mid-write: the temp file is left truncated, then
    -- the IOError handler unlinks it.
    let fs := fs.writeFile tmp .truncated
    (some .ioErr, if fs.fileExists tmp then fs.deleteFile tmp else fs)
  else
    let fs := fs.writeFile tmp (.jmani m)
    if faults.duringParse ∨ (parseContent ((fs.read tmp).getD .truncated)).isNone then
      (some .jsonErr, if fs.fileExists tmp then fs.deleteFile tmp else fs)
    else if faults.duringReplace then
      (some .ioErr, if fs.fileExists tmp then fs.deleteFile tmp else fs)
    else
      (none, fs.moveFile tmp manifestPath)

/-- Models `load_manifest` (src/usl.py:352-363): fail if the file is absent
or does not parse as JSON. -/
def loadManifest (fs : FS) (manifestPath : FsPath) : Option Manifest :=
  if fs.fileExists manifestPath then
    parseContent ((fs.read manifestPath).getD .truncated)
  else none

/-- Association-list lookup matching Python `dict` key access. -/
def alistGet {α : Type} (l : List (String × α)) (k : String) : Option α :=
  (l.find? (fun e => e.1 = k)).map (·.2)

/-- Association-list update matching Python `dict.__setitem__`: overwrite in
place if the key exists, otherwise append (insertion order preserved). -/
def alistSet {α : Type} (l : List (String × α)) (k : String) (v : α) :
    List (String × α) :=
  if (l.find? (fun e => e.1 = k)).isSome then
    l.map (fun e => if e.1 = k then (k, v) else e)
  else l ++ [(k, v)]

/-- Models `add_package_to_manifest` (src/usl.py:543-559): ensure the
`dependencies` key exists, then insert the package with the wildcard version
marker unless it is already present.  Returns `none` when `dependencies`
holds a non-object value (the Python code would raise `TypeError` on the
item assignment). -/
def addPackageToManifest (packageId : String) (m : Manifest) :
    Option (Manifest × Bool) :=
  let m := if (alistGet m "dependencies").isSome then m
           else m ++ [("dependencies", .tbl [])]
  match alistGet m "dependencies" with
  | some (.tbl deps) =>
    if (alistGet deps packageId).isSome then some (m, false)
    else some (alistSet m "dependencies" (.tbl (deps ++ [(packageId, .jstr "*")])), true)
  | _ => none

/-- The effective `dependencies` table of a manifest: the existing object,
an empty table when the key is absent (the code inserts `{}` on demand), or
`none` when the key holds a non-object value. -/
def manifestDeps (m : Manifest) : Option (List (String × JVal)) :=
  match alistGet m "dependencies" with
  | some (.tbl deps) => some deps
  | some _ => none
  | none => some []

/-- The `for pkg_id in sorted(packages_to_install): add_package_to_manifest`
loop of `cmd_add_scripts` (src/usl.py:677-678), threading the in-memory
manifest; `none` models a raised `TypeError`. -/
def addAllPackages (pkgs : List String) (m : Manifest) : Option Manifest :=
  pkgs.foldl
    (fun acc pkg => acc.bind (fun mm => (addPackageToManifest pkg mm).map (·.1)))
    (some m)

/-- Python `str.strip`: drop leading and trailing whitespace. -/
def pyStrip (cs : List Char) : List Char :=
  ((cs.dropWhile Char.isWhitespace).reverse.dropWhile Char.isWhitespace).reverse

/-- Python `str.lower` (ASCII case folding, which covers the descriptor
grammar's alphabet). -/
def pyLower (cs : List Char) : List Char :=
  cs.map Char.toLower

/-- Character class `[a-zA-Z]`. -/
def isAsciiLetter (c : Char) : Bool :=
  ('a' ≤ c && c ≤ 'z') || ('A' ≤ c && c ≤ 'Z')

/-- Character class `[0-9]`. -/
def isAsciiDigit (c : Char) : Bool :=
  '0' ≤ c && c ≤ '9'

/-- Models `validate_dependency_name`: full match of `^[a-zA-Z][a-zA-Z0-9_-]*$`. -/
def validateDependencyName (cs : List Char) : Bool :=
  match cs with
  | [] => false
  | c :: rest =>
    isAsciiLetter c &&
      rest.all (fun d => isAsciiLetter d || isAsciiDigit d || d = '_' || d = '-')

/-- Split a character list on a separator character (`str.split`). -/
def splitOnChar (sep : Char) (cs : List Char) : List (List Char) :=
  match cs with
  | [] => [[]]
  | c :: rest =>
    let parts := splitOnChar sep rest
    if c = sep then [] :: parts
    else
      match parts with
      | p :: ps => (c :: p) :: ps
      | [] => [[c]]

/-- One segment of a package identifier: `[a-z][a-z0-9-]*`. -/
def pkgSegmentOk (cs : List Char) : Bool :=
  match cs with
  | [] => false
  | c :: rest =>
    ('a' ≤ c && c ≤ 'z') &&
      rest.all (fun d => ('a' ≤ d && d ≤ 'z') || isAsciiDigit d || d = '-')

/-- Models `validate_package_id`: full match of
`^[a-z][a-z0-9-]*(\.[a-z][a-z0-9-]*){2,}$` (at least three dot-separated
segments, each `[a-z][a-z0-9-]*`). -/
def validatePackageId (cs : List Char) : Bool :=
  let segs := splitOnChar '.' cs
  decide (3 ≤ segs.length) && segs.all pkgSegmentOk

/-- A descriptor section. -/
inductive DepSect where
  | scripts
  | packages
deriving DecidableEq, Repr

/-- A parser warning: the line number and the offending entry text. -/
structure DepWarning where
  lineNum : Nat
  entry : List Char
deriving DecidableEq, Repr

/-- Parser state for `parse_dependencies_file`: the two result lists, the
set of section headers seen, the current section, the per-section duplicate
tracker and the warnings issued so far. -/
structure PState where
  scriptDeps : List (List Char)
  packageDeps : List (List Char)
  sectionsSeen : List DepSect
  cur : Option DepSect
  seenInSection : List (List Char)
  warnings : List DepWarning
deriving DecidableEq, Repr

/-- The initial parser state. -/
def PState.init : PState := ⟨[], [], [], none, [], []⟩

/-- Process one line of a `dependencies.txt` file (the loop body of
`parse_dependencies_file`, src/usl.py:245-306).  `.error ()` models a raised
`InvalidDependencyFileError` (duplicate section header). -/
def parseStep (st : PState) (lineNum : Nat) (line : List Char) :
    Except Unit PState :=
  let s := pyStrip line
  if s = [] ∨ s.headD ' ' = '#' then .ok st
  else
    let low := pyLower s
    if low = "scripts:".toList then
      if st.sectionsSeen.contains .scripts then .error ()
      else .ok { st with sectionsSeen := st.sectionsSeen ++ [.scripts],
                         cur := some .scripts, seenInSection := [] }
    else if low = "packages:".toList then
      if st.sectionsSeen.contains .packages then .error ()
      else .ok { st with sectionsSeen := st.sectionsSeen ++ [.packages],
                         cur := some .packages, seenInSection := [] }
    else if st.cur = some .scripts ∧ s.headD ' ' = '-' then
      let depName := pyStrip (s.drop 1)
      if ¬ validateDependencyName depName then
        .ok { st with warnings := st.warnings ++ [⟨lineNum, depName⟩] }
      else if st.seenInSection.contains depName then
        .ok { st with warnings := st.warnings ++ [⟨lineNum, depName⟩] }
      else
        .ok { st with seenInSection := st.seenInSection ++ [depName],
                      scriptDeps := st.scriptDeps ++ [depName] }
    else if st.cur = some .packages ∧ s.headD ' ' = '-' then
      let depName := pyStrip (s.drop 1)
      if ¬ validatePackageId depName then
        .ok { st with warnings := st.warnings ++ [⟨lineNum, depName⟩] }
      else if st.seenInSection.contains depName then
        .ok { st with warnings := st.warnings ++ [⟨lineNum, depName⟩] }
      else
        .ok { st with seenInSection := st.seenInSection ++ [depName],
                      packageDeps := st.packageDeps ++ [depName] }
    else .ok st

/-- Fold `parseStep` over the numbered lines of the file
(`enumerate(f, 1)`). -/
def parseLinesFrom (st : PState) (firstLineNum : Nat) :
    List (List Char) → Except Unit PState
  | [] => .ok st
  | l :: ls =>
    match parseStep st firstLineNum l with
    | .error e => .error e
    | .ok st' => parseLinesFrom st' (firstLineNum + 1) ls

/-- Models `parse_dependencies_file` on the lines of an existing
`dependencies.txt` file. -/
def parseDependenciesLines (lines : List (List Char)) : Except Unit PState :=
  parseLinesFrom PState.init 1 lines

/-- The entry name a line would contribute if it were inside a section: the
line's stripped text starts with `-`, and the name is the rest, stripped. -/
def entryNameOf (l : List Char) : Option (List Char) :=
  let s := pyStrip l
  if s.headD ' ' = '-' then some (pyStrip (s.drop 1)) else none

/-- All dash-entry names of a file, in file order. -/
def entryNames (lines : List (List Char)) : List (List Char) :=
  lines.filterMap entryNameOf

/-- Invariant of the descriptor parser state: result lists are
duplicate-free and grammatically valid, entries of the current section are
recorded in the per-section duplicate tracker, a section that has not been
opened has no entries, and the current section has been opened. -/
def PInv (st : PState) : Prop :=
  st.scriptDeps.Nodup ∧ st.packageDeps.Nodup ∧
  (∀ n ∈ st.scriptDeps, validateDependencyName n = true) ∧
  (∀ n ∈ st.packageDeps, validatePackageId n = true) ∧
  (st.cur = some .scripts → ∀ n ∈ st.scriptDeps, n ∈ st.seenInSection) ∧
  (st.cur = some .packages → ∀ n ∈ st.packageDeps, n ∈ st.seenInSection) ∧
  (DepSect.scripts ∉ st.sectionsSeen → st.scriptDeps = []) ∧
  (DepSect.packages ∉ st.sectionsSeen → st.packageDeps = []) ∧
  (∀ x, st.cur = some x → x ∈ st.sectionsSeen)

/-- Models `parse_dependencies_file` including the missing-file case
(`none` = no `dependencies.txt`, which yields empty results): returns the
`(script_deps, package_deps)` pair. -/
def parseDependenciesFile (file : Option (List (List Char))) :
    Except Unit (List (List Char) × List (List Char)) :=
  match file with
  | none => .ok ([], [])
  | some lines =>
    match parseDependenciesLines lines with
    | .error e => .error e
    | .ok st => .ok (st.scriptDeps, st.packageDeps)

/-- Length of the common run of equal characters at the heads of two lists. -/
def commonRun : List Char → List Char → Nat
  | a :: as, b :: bs => if a = b then commonRun as bs + 1 else 0
  | _, _ => 0

/-- Models `SequenceMatcher.find_longest_match` without junk (the catalog
names are far below the autojunk threshold): among all maximal matching
blocks, the one starting earliest in `a`, then earliest in `b`; returns
`(i, j, size)`. -/
def findLongestMatch (a b : List Char) : Nat × Nat × Nat :=
  (List.range a.length).foldl
    (fun best i =>
      (List.range b.length).foldl
        (fun best j =>
          let k := commonRun (a.drop i) (b.drop j)
          if best.2.2 < k then (i, j, k) else best)
        best)
    (0, 0, 0)

/-- Total number of matched characters over the recursive matching-block
decomposition (`SequenceMatcher.get_matching_blocks`), with explicit fuel
bounding the recursion depth. -/
def totalMatchedGo : Nat → List Char → List Char → Nat
  | 0, _, _ => 0
  | fuel + 1, a, b =>
    let m := findLongestMatch a b
    if m.2.2 = 0 then 0
    else
      totalMatchedGo fuel (a.take m.1) (b.take m.2.1) + m.2.2 +
        totalMatchedGo fuel (a.drop (m.1 + m.2.2)) (b.drop (m.2.1 + m.2.2))

/-- Total matched characters between `a` and `b` (each recursion level
strictly shrinks `a`, so `a.length + 1` fuel always suffices). -/
def totalMatched (a b : List Char) : Nat :=
  totalMatchedGo (a.length + 1) a b

/-- `difflib._calculate_ratio`: `2 * matches / length`, or 1 when both
sequences are empty.  Scores are exact rationals; for the short names
compared here the float arithmetic of `difflib` agrees with the exact
value. -/
abbrev ScoreQ := Nat × Nat

/-- Exact order on scores represented as unreduced fractions
`(numerator, denominator)` with positive denominator: `a <= b` by
cross-multiplication, the exact rational order. -/
def scoreLe (a b : ScoreQ) : Bool :=
  a.1 * b.2 <= b.1 * a.2

/-- Exact strict order on scores: `a < b`. -/
def scoreLt (a b : ScoreQ) : Bool :=
  a.1 * b.2 < b.1 * a.2

/-- Exact equality of scores. -/
def scoreEq (a b : ScoreQ) : Bool :=
  a.1 * b.2 = b.1 * a.2

def calcScore (mcount length : Nat) : ScoreQ :=
  if length = 0 then (1, 1) else (2 * mcount, length)

/-- `SequenceMatcher.ratio` for `a` against `b`. -/
def simScore (a b : List Char) : ScoreQ :=
  calcScore (totalMatched a b) (a.length + b.length)

/-- The avail-tracking loop of `SequenceMatcher.quick_ratio`, counting the
multiset intersection of the two character sequences. -/
def quickMatchCount (a b : List Char) : Nat :=
  (a.foldl
    (fun (st : List (Char × Int) × Nat) c =>
      let numb : Int :=
        ((st.1.find? (fun e => e.1 = c)).map (·.2)).getD (b.count c : Int)
      let avail := (c, numb - 1) :: st.1.filter (fun e => ¬ e.1 = c)
      if 0 < numb then (avail, st.2 + 1) else (avail, st.2))
    ([], 0)).2

/-- `SequenceMatcher.quick_ratio`. -/
def quickScore (a b : List Char) : ScoreQ :=
  calcScore (quickMatchCount a b) (a.length + b.length)

/-- `SequenceMatcher.real_quick_ratio`. -/
def realQuickScore (a b : List Char) : ScoreQ :=
  calcScore (min a.length b.length) (a.length + b.length)

/-- Python string comparison (`<` on code points, lexicographic). -/
def charsLt : List Char → List Char → Bool
  | [], [] => false
  | [], _ :: _ => true
  | _ :: _, [] => false
  | a :: as, b :: bs => if a < b then true else if b < a then false else charsLt as bs

/-- Descending comparison key for `(score, word)` pairs, matching Python
tuple comparison. -/
def pairLt (p q : ScoreQ × String) : Bool :=
  scoreLt p.1 q.1 || (scoreEq p.1 q.1 && charsLt p.2.toList q.2.toList)

/-- Insert into a descending-sorted list. -/
def insertDesc (x : ScoreQ × String) :
    List (ScoreQ × String) → List (ScoreQ × String)
  | [] => [x]
  | y :: ys => if pairLt y x then x :: y :: ys else y :: insertDesc x ys

/-- Sort `(score, word)` pairs in descending order
(`heapq.nlargest` is `sorted(..., reverse=True)[:n]`). -/
def sortPairsDesc (l : List (ScoreQ × String)) : List (ScoreQ × String) :=
  l.foldr insertDesc []

/-- Models `difflib.get_close_matches(word, possibilities, n, cutoff)`:
keep the possibilities whose similarity to `word` reaches the cutoff (the
two quick upper bounds are checked first, exactly as in `difflib`), then
return the `n` best, ranked by score and tie-broken by Python tuple
comparison. -/
def getCloseMatches (word : String) (possibilities : List String) (n : Nat)
    (cutoff : ScoreQ) : List String :=
  let b := word.toList
  let scored := possibilities.filterMap
    (fun x =>
      let a := x.toList
      if scoreLe cutoff (realQuickScore a b) ∧
          scoreLe cutoff (quickScore a b) ∧
          scoreLe cutoff (simScore a b) then
        some (simScore a b, x)
      else none)
  ((sortPairsDesc scored).take n).map (·.2)

/-- The structured content of a `DependencyNotFoundError` raised during
resolution (src/usl.py:406-414): the unresolved name, the requesting
package's name, and the fuzzy-match suggestions embedded in the message. -/
structure DepNotFound where
  depName : String
  requiredBy : String
  suggestions : List String
deriving DecidableEq, Repr

/-- Errors of the resolver: a malformed descriptor
(`InvalidDependencyFileError`), a missing dependency
(`DependencyNotFoundError`), or exhausted recursion fuel (an artifact of the
embedding; never reached with sufficient fuel). -/
inductive RErr where
  | malformed
  | notFound (e : DepNotFound)
  | fuelOut
deriving DecidableEq, Repr

/-- Accumulated resolution data: scripts, packages, the shared visited set,
and the log of locations whose descriptor was parsed. -/
abbrev RAcc := List String × List String × List String × List String

/-- Python `set.update` modelled on duplicate-free lists: append the new
elements in order. -/
def listUnion (a b : List String) : List String :=
  b.foldl (fun acc x => if acc.contains x then acc else acc ++ [x]) a

/-- One iteration of the `for dep_name in deps["scripts"]` loop of
`resolve_script_dependencies` (src/usl.py:406-421): look the dependency up in
the catalog — raising `DependencyNotFoundError` with up to three fuzzy-match
suggestions when absent — recurse via `go`, and union the results into the
accumulators.  A pending error short-circuits the remaining iterations. -/
def resolveStep (cat : List (String × String))
    (go : String → List String → List String → Except RErr RAcc)
    (loc : String) (acc : Except RErr RAcc) (depName : String) :
    Except RErr RAcc :=
  match acc with
  | .error e => .error e
  | .ok (scripts, packages, visited, parses) =>
    match alistGet cat depName with
    | none =>
      .error (.notFound
        ⟨depName, loc, getCloseMatches depName (cat.map (·.1)) 3 (3, 5)⟩)
    | some depLoc =>
      match go depLoc visited parses with
      | .error e => .error e
      | .ok (s, p, visited', parses') =>
        .ok (listUnion scripts s, listUnion packages p, visited', parses')

/-- Models `resolve_script_dependencies` (src/usl.py:375-423).  `cat` is the
`name_map` (name to package location), `descs` gives the lines of each
package's `dependencies.txt` (or `none` when absent); the mutable `visited`
set is threaded explicitly, and `parses` logs each descriptor parse.  Fuel
makes the recursion structurally terminating; `resolverFuel` below always
suffices. -/
def resolveGo (cat : List (String × String))
    (descs : String → Option (List (List Char))) :
    Nat → String → List String → List String → Except RErr RAcc
  | 0, _, _, _ => .error .fuelOut
  | fuel + 1, loc, visited, parses =>
    if visited.contains loc then .ok ([], [], visited, parses)
    else
      let visited := visited ++ [loc]
      match parseDependenciesFile (descs loc) with
      | .error _ => .error .malformed
      | .ok (sd, pd) =>
        let parses := parses ++ [loc]
        (sd.map (fun cs => (⟨cs⟩ : String))).foldl
          (resolveStep cat (resolveGo cat descs fuel) loc)
          (.ok ([loc], listUnion [] (pd.map (fun cs => (⟨cs⟩ : String))),
            visited, parses))

/-- Shape of every `DependencyNotFoundError` the resolver raises: the name
is absent from the catalog, and the suggestions are `difflib`'s top-3
matches above cutoff 0.6 over the catalog's name set. -/
def dependencyErrorShape (cat : List (String × String)) (e : DepNotFound) :
    Prop :=
  alistGet cat e.depName = none ∧
  e.suggestions = getCloseMatches e.depName (cat.map (·.1)) 3 (3, 5)

/-- Fuel that always suffices for `resolveGo` (one more than the number of
catalog entries plus the root). -/
def resolverFuel (cat : List (String × String)) : Nat :=
  cat.length + 2

/-- The public entry point `resolve_script_dependencies(script_path,
name_map)` with `visited = None`: returns the resolved `(scripts, packages)`
sets (with the threaded bookkeeping). -/
def resolveScriptDependencies (cat : List (String × String))
    (descs : String → Option (List (List Char))) (loc : String) :
    Except RErr RAcc :=
  resolveGo cat descs (resolverFuel cat) loc [] []

/-- A source script package: its name and its files (relative path and text
content, in `rglob` order). -/
structure PkgSrc where
  name : String
  files : List (FsPath × String)
deriving DecidableEq, Repr

/-- The `SKIP_FILES` constant (src/usl.py:36-41). -/
def skipFiles : List String :=
  ["dependencies.txt", ".DS_Store", "Thumbs.db", "desktop.ini"]

/-- The `files_to_copy` collection loop of `copy_script_package`
(src/usl.py:445-451): every file whose basename is not in `SKIP_FILES`. -/
def filesToCopy (p : PkgSrc) : List (FsPath × String) :=
  p.files.filter (fun f => ¬ skipFiles.contains (f.1.getLastD ""))

/-- State threaded through the body of the `with InstallationTransaction`
block of `cmd_add_scripts` (src/usl.py:668-691), instrumented with a
fault-injection point (`failAt`: the index of the action before which an
exception is raised), a liveness flag (`alive = false` once an exception is
in flight), and counters for manifest writes, manifest additions and
commits. -/
structure BodySt where
  fs : FS
  txn : Txn
  manifest : Manifest
  alive : Bool
  idx : Nat
  failAt : Option Nat
  commits : Nat
  writes : Nat
  addedCount : Nat

/-- Fault-injection checkpoint before each action of the transaction body. -/
def checkpoint (st : BodySt) : BodySt :=
  if st.alive then
    if st.failAt = some st.idx then { st with alive := false, idx := st.idx + 1 }
    else { st with idx := st.idx + 1 }
  else st

/-- The load-or-create-manifest step of `cmd_add_scripts`
(src/usl.py:669-674); a manifest that exists but does not parse raises
`ManifestError` inside the transaction scope. -/
def loadStep (st : BodySt) : BodySt :=
  let st := checkpoint st
  if ¬ st.alive then st
  else if st.fs.fileExists st.txn.manifestPath then
    match loadManifest st.fs st.txn.manifestPath with
    | some m => { st with manifest := m }
    | none => { st with alive := false }
  else { st with manifest := [("dependencies", .tbl [])] }

/-- One iteration of the `for pkg_id in sorted(packages_to_install)` loop
(src/usl.py:677-678). -/
def addStep (st : BodySt) (pkg : String) : BodySt :=
  let st := checkpoint st
  if ¬ st.alive then st
  else
    match addPackageToManifest pkg st.manifest with
    | some (m, added) =>
      { st with manifest := m,
                addedCount := st.addedCount + (if added then 1 else 0) }
    | none => { st with alive := false }

/-- The `if packages_to_install: write_manifest_atomic(...)` step
(src/usl.py:681-683). -/
def writeStep (packagesToInstall : List String) (st : BodySt) : BodySt :=
  if packagesToInstall.isEmpty then st
  else
    let st := checkpoint st
    if ¬ st.alive then st
    else
      match writeManifestAtomic st.fs st.txn.manifestPath st.manifest
          WriteFaults.none with
      | (none, fs) => { st with fs := fs, writes := st.writes + 1 }
      | (some _, fs) => { st with fs := fs, writes := st.writes + 1, alive := false }

/-- One iteration of the per-file loop of `copy_script_package`
(src/usl.py:454-507): create and track missing ancestor directories, consult
the overwrite prompt, back up a pre-existing destination, track the file
operation, then copy. -/
def copyFileStep (targetDir : FsPath) (assumeYes : Bool) (ans : FsPath → Bool)
    (st : BodySt) (file : FsPath × String) : BodySt :=
  let st := checkpoint st
  if ¬ st.alive then st
  else
    let dest := targetDir ++ file.1
    let st :=
      if ¬ st.fs.pathExists dest.dropLast then
        let dirsToCreate :=
          ((List.range dest.length).map (fun i => dest.take i)).filter
            (fun parent => targetDir.isPrefixOf parent ∧ ¬ parent = targetDir ∧
              ¬ st.fs.pathExists parent)
        let txn := dirsToCreate.foldl Txn.trackDir st.txn
        let fs :=
          (((List.range (dest.dropLast.length + 1)).map
              (fun i => dest.dropLast.take i)).filter (fun q => ¬ q = [])).foldl
            FS.mkdir st.fs
        { st with txn := txn, fs := fs }
      else st
    let shouldCopy :=
      if st.fs.fileExists dest ∧ ¬ assumeYes then ans dest else true
    if ¬ shouldCopy then st
    else
      let backup :=
        if st.fs.fileExists dest then
          some (withSuffixPath dest (pySuffix (dest.getLastD "") ++ ".usl_backup"))
        else none
      let st :=
        match backup, st.fs.read dest with
        | some b, some c => { st with fs := st.fs.writeFile b c }
        | _, _ => st
      let st := { st with txn := st.txn.trackFile dest backup }
      { st with fs := st.fs.writeFile dest (.text file.2) }

/-- `copy_script_package` for one package inside the transaction. -/
def copyPkgStep (targetDir : FsPath) (assumeYes : Bool) (ans : FsPath → Bool)
    (st : BodySt) (pkg : PkgSrc) : BodySt :=
  (filesToCopy pkg).foldl (copyFileStep targetDir assumeYes ans) st

/-- The final `txn.commit()` of the transaction body (src/usl.py:690). -/
def commitStep (st : BodySt) : BodySt :=
  let st := checkpoint st
  if ¬ st.alive then st
  else
    let r := commitTxn st.fs st.txn
    { st with fs := r.1, txn := r.2, commits := st.commits + 1 }

/-- Static data of one `cmd_add_scripts` installation (phase 3): the manifest
path, the target `Assets` directory, the confirmation mode, and the resolved
plan (external identifiers and packages, already sorted as in the source). -/
structure InstallEnv where
  manifestPath : FsPath
  targetDir : FsPath
  assumeYes : Bool
  overwriteAns : FsPath → Bool
  packagesSorted : List String
  scriptsSorted : List PkgSrc

/-- The whole `with InstallationTransaction(manifest_path) as txn:` body of
`cmd_add_scripts`, with a fault injected before action number `failAt`. -/
def runBody (env : InstallEnv) (fs0 : FS) (failAt : Option Nat) : BodySt :=
  let t0 := Txn.mk0 env.manifestPath
  let fs1 := enterTxn fs0 t0
  let st : BodySt :=
    { fs := fs1, txn := t0, manifest := [], alive := true, idx := 0,
      failAt := failAt, commits := 0, writes := 0, addedCount := 0 }
  let st := loadStep st
  let st := env.packagesSorted.foldl addStep st
  let st := writeStep env.packagesSorted st
  let st := env.scriptsSorted.foldl
    (copyPkgStep env.targetDir env.assumeYes env.overwriteAns) st
  commitStep st

/-- The transaction scope end to end: run the body, then
`InstallationTransaction.__exit__` (with an exception pending exactly when
the body died). -/
def runInstall (env : InstallEnv) (fs0 : FS) (failAt : Option Nat) :
    FS × BodySt :=
  let st := runBody env fs0 failAt
  ((exitTxn (¬ st.alive) st.fs st.txn).1, st)

/-! Concrete fixtures used by witnesses and counterexamples. -/

/-- A project filesystem with a manifest, a pre-existing `Assets/x.txt`
holding `original`, and the `Packages` and `Assets` directories. -/
def fsA : FS :=
  { files := [(["Packages", "manifest.json"], .jmani [("dependencies", .tbl [])]),
              (["Assets", "x.txt"], .text "original")],
    dirs := [["Packages"], ["Assets"]] }

/-- A mid-installation transaction over `fsA`-like state: `x.txt` was backed
up and overwritten, `Sub/y.txt` and its directory are new. -/
def txnA : Txn :=
  { manifestPath := ["Packages", "manifest.json"],
    backupPath := ["Packages", "manifest.backup"],
    trackedFiles := [(["Assets", "x.txt"], some ["Assets", "x.txt.usl_backup"]),
                     (["Assets", "Sub", "y.txt"], none)],
    trackedDirs := [["Assets", "Sub"]],
    committed := false }

/-- The filesystem state right before the failure: backups taken, new content
copied, new directory created. -/
def fsMid : FS :=
  { files := [(["Packages", "manifest.json"],
                .jmani [("dependencies", .tbl [("com.unity.inputsystem", .jstr "*")])]),
              (["Packages", "manifest.backup"], .jmani [("dependencies", .tbl [])]),
              (["Assets", "x.txt"], .text "new"),
              (["Assets", "x.txt.usl_backup"], .text "original"),
              (["Assets", "Sub", "y.txt"], .text "why")],
    dirs := [["Packages"], ["Assets"], ["Assets", "Sub"]] }

/-- Catalog with a two-package dependency cycle: A requires B, B requires A. -/
def catCyc : List (String × String) := [("A", "A"), ("B", "B")]

/-- Descriptor files for the cycle catalog. -/
def descsCyc : String → Option (List (List Char)) := fun l =>
  if l = "A" then some ["scripts:".toList, "- B".toList]
  else if l = "B" then some ["scripts:".toList, "- A".toList]
  else none

/-- Catalog for the diamond: A requires B and C, both require D. -/
def catDia : List (String × String) :=
  [("A", "A"), ("B", "B"), ("C", "C"), ("D", "D")]

/-- Descriptor files for the diamond catalog. -/
def descsDia : String → Option (List (List Char)) := fun l =>
  if l = "A" then some ["scripts:".toList, "- B".toList, "- C".toList]
  else if l = "B" then some ["scripts:".toList, "- D".toList]
  else if l = "C" then some ["scripts:".toList, "- D".toList]
  else none

/-- Catalog containing `foo` and `bar`, where `bar` requires the undefined
name `foox`. -/
def catMiss : List (String × String) := [("foo", "foo"), ("bar", "bar")]

/-- Descriptor files for the missing-dependency catalog. -/
def descsMiss : String → Option (List (List Char)) := fun l =>
  if l = "bar" then some ["scripts:".toList, "- foox".toList] else none

/-- A manifest with an extra top-level key and one existing dependency. -/
def maniB : Manifest :=
  [("name", .val (.jstr "proj")),
   ("dependencies", .tbl [("com.a.b.c", .jstr "1.0")])]

/-- `maniB` after adding `com.a.b.c` (already present, no-op) and
`com.x.y.z` (appended with the wildcard marker). -/
def maniB' : Manifest :=
  [("name", .val (.jstr "proj")),
   ("dependencies", .tbl [("com.a.b.c", .jstr "1.0"), ("com.x.y.z", .jstr "*")])]

/-- Descriptor file with an invalid entry name in the `scripts:` section. -/
def linesBadName : List (List Char) :=
  ["scripts:".toList, "- Bad!Name".toList, "- good".toList]

/-- The parser state produced by `linesBadName`. -/
def stBadName : PState :=
  ⟨["good".toList], [], [.scripts], some .scripts, ["good".toList],
   [⟨2, "Bad!Name".toList⟩]⟩

/-- Descriptor file with a duplicated entry in the `scripts:` section. -/
def linesDupEntry : List (List Char) :=
  ["scripts:".toList, "- foo".toList, "- foo".toList]

/-- Descriptor file with a duplicated `packages:` section header. -/
def linesDupHeader : List (List Char) :=
  ["packages:".toList, "- com.unity.x".toList, "packages:".toList]

/-- An install environment: one external identifier and one package with a
file that overwrites `Assets/x.txt` and a file in a fresh subdirectory. -/
def envA : InstallEnv :=
  { manifestPath := ["Packages", "manifest.json"],
    targetDir := ["Assets"],
    assumeYes := true,
    overwriteAns := fun _ => true,
    packagesSorted := ["com.unity.inputsystem"],
    scriptsSorted := [⟨"P", [(["x.txt"], "new"), (["Sub", "y.txt"], "why")]⟩] }

/-- A project filesystem whose manifest already lists
`com.unity.inputsystem`. -/
def fsB : FS :=
  { files := [(["Packages", "manifest.json"],
                .jmani [("dependencies",
                          .tbl [("com.unity.inputsystem", .jstr "1.0")])])],
    dirs := [["Packages"], ["Assets"]] }

/-- An install environment whose only external identifier is already present
in the manifest of `fsB`, with no script packages. -/
def envB : InstallEnv :=
  { manifestPath := ["Packages", "manifest.json"],
    targetDir := ["Assets"],
    assumeYes := true,
    overwriteAns := fun _ => true,
    packagesSorted := ["com.unity.inputsystem"],
    scriptsSorted := [] }

/-! Basic lemmas about the filesystem model. -/

theorem find_filter_ne {α : Type} (l : List (FsPath × α)) (p q : FsPath)
    (h : ¬ q = p) :
    (l.filter (fun e => ¬ e.1 = p)).find? (fun e => e.1 = q) =
      l.find? (fun e => e.1 = q) := by
  induction l with
  | nil => rfl
  | cons a t ih =>
    by_cases hap : a.1 = p
    · have haq : ¬ a.1 = q := fun hq => h (hq ▸ hap)
      rw [List.filter_cons_of_neg (by simpa using hap),
        List.find?_cons_of_neg _ (by simpa using haq), ih]
    · rw [List.filter_cons_of_pos (by simpa using hap)]
      by_cases haq : a.1 = q
      · rw [List.find?_cons_of_pos _ (by simpa using haq),
          List.find?_cons_of_pos _ (by simpa using haq)]
      · rw [List.find?_cons_of_neg _ (by simpa using haq),
          List.find?_cons_of_neg _ (by simpa using haq), ih]

theorem read_writeFile (fs : FS) (p : FsPath) (c : FContent) (q : FsPath) :
    (fs.writeFile p c).read q = if q = p then some c else fs.read q := by
  simp only [FS.read, FS.writeFile]
  by_cases h : q = p
  · subst h
    rw [List.find?_cons_of_pos _ (by simp)]
    simp
  · rw [List.find?_cons_of_neg _ (by simpa using fun hp : p = q => h hp.symm),
      find_filter_ne fs.files p q h]
    simp [h]

theorem read_deleteFile (fs : FS) (p : FsPath) (q : FsPath) :
    (fs.deleteFile p).read q = if q = p then none else fs.read q := by
  simp only [FS.read, FS.deleteFile]
  by_cases h : q = p
  · subst h
    have hnone : (fs.files.filter (fun e => ¬ e.1 = q)).find?
        (fun e => e.1 = q) = none := by
      rw [List.find?_eq_none]
      intro e he
      have h2 := (List.mem_filter.mp he).2
      simpa using h2
    rw [hnone]
    simp
  · rw [find_filter_ne fs.files p q h]
    simp [h]

theorem dirs_writeFile (fs : FS) (p : FsPath) (c : FContent) :
    (fs.writeFile p c).dirs = fs.dirs := rfl

theorem dirs_deleteFile (fs : FS) (p : FsPath) :
    (fs.deleteFile p).dirs = fs.dirs := rfl

theorem dirs_moveFile (fs : FS) (src dst : FsPath) :
    (fs.moveFile src dst).dirs = fs.dirs := by
  unfold FS.moveFile
  cases fs.read src <;> rfl

theorem read_moveFile_other (fs : FS) (src dst q : FsPath)
    (h1 : ¬ q = src) (h2 : ¬ q = dst) :
    (fs.moveFile src dst).read q = fs.read q := by
  unfold FS.moveFile
  cases h : fs.read src with
  | none => rfl
  | some c => rw [read_writeFile, read_deleteFile] ; simp [h1, h2]

theorem read_moveFile_dst (fs : FS) (src dst : FsPath) (c : FContent)
    (h : fs.read src = some c) :
    (fs.moveFile src dst).read dst = some c := by
  unfold FS.moveFile
  rw [h, read_writeFile]
  simp

theorem read_moveFile_src (fs : FS) (src dst : FsPath) (c : FContent)
    (h : fs.read src = some c) (hne : ¬ src = dst) :
    (fs.moveFile src dst).read src = none := by
  unfold FS.moveFile
  rw [h, read_writeFile, read_deleteFile]
  simp [hne]

theorem fileExists_iff_read (fs : FS) (p : FsPath) :
    fs.fileExists p = true ↔ ∃ c, fs.read p = some c := by
  unfold FS.fileExists
  cases fs.read p <;> simp

/-! Lemmas about the tracked-file rollback phase. -/

theorem rollbackFiles_eq_foldr (fs : FS) (l : List (FsPath × Option FsPath)) :
    rollbackFiles fs l = l.foldr (fun e acc => fileRollbackStep acc e) fs := by
  unfold rollbackFiles
  rw [List.foldl_reverse]

theorem fileRollbackStep_none (fs : FS) (d : FsPath) :
    fileRollbackStep fs (d, none) =
      if fs.fileExists d then fs.deleteFile d else fs := rfl

theorem fileRollbackStep_some (fs : FS) (d b : FsPath) :
    fileRollbackStep fs (d, some b) =
      if fs.fileExists b then fs.moveFile b d
      else if fs.fileExists d then fs.deleteFile d else fs := rfl

theorem fileRollbackStep_dirs (fs : FS) (e : FsPath × Option FsPath) :
    (fileRollbackStep fs e).dirs = fs.dirs := by
  obtain ⟨d, ob⟩ := e
  cases ob with
  | none =>
    rw [fileRollbackStep_none]
    split <;> rfl
  | some b =>
    rw [fileRollbackStep_some]
    split
    · rw [dirs_moveFile]
    · split <;> rfl

theorem fileRollbackStep_read_other (fs : FS) (e : FsPath × Option FsPath)
    (q : FsPath) (h1 : ¬ q = e.1) (h2 : ∀ b, e.2 = some b → ¬ q = b) :
    (fileRollbackStep fs e).read q = fs.read q := by
  obtain ⟨d, ob⟩ := e
  cases ob with
  | none =>
    rw [fileRollbackStep_none]
    split
    · rw [read_deleteFile]
      simp at h1
      simp [h1]
    · rfl
  | some b =>
    rw [fileRollbackStep_some]
    simp at h1
    split
    · exact read_moveFile_other fs b d q (h2 b rfl) h1
    · split
      · rw [read_deleteFile]
        simp [h1]
      · rfl

theorem rollbackFiles_dirs (fs : FS) (l : List (FsPath × Option FsPath)) :
    (rollbackFiles fs l).dirs = fs.dirs := by
  rw [rollbackFiles_eq_foldr]
  induction l with
  | nil => rfl
  | cons e t ih => simpa [List.foldr_cons, fileRollbackStep_dirs] using ih

theorem rollbackFiles_read_other (fs : FS) (l : List (FsPath × Option FsPath))
    (q : FsPath) (h1 : ∀ e ∈ l, ¬ q = e.1)
    (h2 : ∀ e ∈ l, ∀ b, e.2 = some b → ¬ q = b) :
    (rollbackFiles fs l).read q = fs.read q := by
  rw [rollbackFiles_eq_foldr]
  induction l with
  | nil => rfl
  | cons e t ih =>
    rw [List.foldr_cons]
    rw [fileRollbackStep_read_other _ e q (h1 e (by simp))
      (fun b hb => h2 e (by simp) b hb)]
    exact ih (fun e' he' => h1 e' (by simp [he']))
      (fun e' he' b hb => h2 e' (by simp [he']) b hb)

theorem read_of_fileExists_false (fs : FS) (p : FsPath)
    (h : ¬ fs.fileExists p = true) : fs.read p = none := by
  unfold FS.fileExists at h
  cases hv : fs.read p
  · rfl
  · rw [hv] at h
    simp at h

/-- Rollback of the tracked files restores every backed-up destination to
the backup's content and removes every fresh destination and every consumed
backup, provided destinations are pairwise distinct, backups are pairwise
distinct, no destination doubles as a backup, and every recorded backup
exists. -/
theorem rollbackFiles_restore (l : List (FsPath × Option FsPath)) (fs : FS)
    (hD : (l.map (·.1)).Nodup) (hB : (l.filterMap (·.2)).Nodup)
    (hDB : ∀ d ∈ l.map (·.1), ∀ b ∈ l.filterMap (·.2), ¬ d = b)
    (hEx : ∀ b ∈ l.filterMap (·.2), fs.fileExists b = true) :
    ∀ e ∈ l, (rollbackFiles fs l).read e.1 = e.2.bind fs.read ∧
      (∀ b, e.2 = some b → (rollbackFiles fs l).read b = none) := by
  induction l generalizing fs with
  | nil => intro e he; cases he
  | cons hd t ih =>
    obtain ⟨d0, ob0⟩ := hd
    have hfold : rollbackFiles fs ((d0, ob0) :: t) =
        fileRollbackStep (rollbackFiles fs t) (d0, ob0) := by
      rw [rollbackFiles_eq_foldr, List.foldr_cons, ← rollbackFiles_eq_foldr]
    rw [List.map_cons] at hD
    have hd0 : d0 ∉ t.map (·.1) := (List.nodup_cons.mp hD).1
    have hDt : (t.map (·.1)).Nodup := (List.nodup_cons.mp hD).2
    cases ob0 with
    | none =>
      have hBt : (t.filterMap (·.2)).Nodup := by
        simpa [List.filterMap_cons] using hB
      have hsubB : ∀ b ∈ t.filterMap (·.2),
          b ∈ ((d0, (none : Option FsPath)) :: t).filterMap (·.2) := by
        intro b hb
        simpa [List.filterMap_cons] using hb
      have hDBt : ∀ d ∈ t.map (·.1), ∀ b ∈ t.filterMap (·.2), ¬ d = b :=
        fun d hd b hb => hDB d (by simp [hd]) b (hsubB b hb)
      have hExt : ∀ b ∈ t.filterMap (·.2), fs.fileExists b = true :=
        fun b hb => hEx b (hsubB b hb)
      have ihres := ih fs hDt hBt hDBt hExt
      intro e he
      rcases List.mem_cons.mp he with he | he
      · subst he
        refine ⟨?_, by intro b hb; cases hb⟩
        rw [hfold, fileRollbackStep_none]
        simp only [Option.bind]
        split
        · rw [read_deleteFile]
          simp
        · exact read_of_fileExists_false _ _ (by assumption)
      · have hres := ihres e he
        have he1_ne : ¬ e.1 = d0 := by
          intro h
          exact hd0 (h ▸ List.mem_map.mpr ⟨e, he, rfl⟩)
        refine ⟨?_, ?_⟩
        · rw [hfold, fileRollbackStep_read_other _ _ e.1 he1_ne
            (by intro b hb; cases hb)]
          exact hres.1
        · intro b hb
          have hb_ne : ¬ b = d0 := by
            intro h
            exact hDB d0 (by simp) b
              (hsubB b (List.mem_filterMap.mpr ⟨e, he, hb⟩)) h.symm
          rw [hfold, fileRollbackStep_read_other _ _ b hb_ne
            (by intro b' hb'; cases hb')]
          exact hres.2 b hb
    | some b0 =>
      have hBc : (b0 :: t.filterMap (·.2)).Nodup := by
        simpa [List.filterMap_cons] using hB
      have hb0 : b0 ∉ t.filterMap (·.2) := (List.nodup_cons.mp hBc).1
      have hBt : (t.filterMap (·.2)).Nodup := (List.nodup_cons.mp hBc).2
      have hsubB : ∀ b ∈ t.filterMap (·.2),
          b ∈ ((d0, some b0) :: t).filterMap (·.2) := by
        intro b hb
        simpa [List.filterMap_cons] using Or.inr hb
      have hb0mem : b0 ∈ ((d0, some b0) :: t).filterMap (·.2) := by
        simp [List.filterMap_cons]
      have hDBt : ∀ d ∈ t.map (·.1), ∀ b ∈ t.filterMap (·.2), ¬ d = b :=
        fun d hd b hb => hDB d (by simp [hd]) b (hsubB b hb)
      have hExt : ∀ b ∈ t.filterMap (·.2), fs.fileExists b = true :=
        fun b hb => hEx b (hsubB b hb)
      have ihres := ih fs hDt hBt hDBt hExt
      have hb0_ne_d0 : ¬ b0 = d0 := by
        intro h
        exact hDB d0 (by simp) b0 hb0mem h.symm
      -- the inner rollback does not touch b0
      have hinner_b0 : (rollbackFiles fs t).read b0 = fs.read b0 := by
        apply rollbackFiles_read_other
        · intro e' he' h
          exact hDB e'.1 (by simp [List.mem_map.mpr ⟨e', he', rfl⟩]) b0 hb0mem
            h.symm
        · intro e' he' b' hb' h
          exact hb0 (h ▸ List.mem_filterMap.mpr ⟨e', he', hb'⟩)
      rcases (fileExists_iff_read fs b0).mp (hEx b0 hb0mem) with ⟨c, hc⟩
      have hex' : (rollbackFiles fs t).fileExists b0 = true := by
        rw [fileExists_iff_read]
        exact ⟨c, by rw [hinner_b0, hc]⟩
      intro e he
      rcases List.mem_cons.mp he with he | he
      · subst he
        refine ⟨?_, ?_⟩
        · rw [hfold, fileRollbackStep_some, if_pos hex']
          rw [read_moveFile_dst _ _ _ c (by rw [hinner_b0, hc])]
          simp [Option.bind, hc]
        · intro b hb
          cases hb
          rw [hfold, fileRollbackStep_some, if_pos hex']
          exact read_moveFile_src _ _ _ c (by rw [hinner_b0, hc]) hb0_ne_d0
      · have hres := ihres e he
        have he1_ne : ¬ e.1 = d0 := by
          intro h
          exact hd0 (h ▸ List.mem_map.mpr ⟨e, he, rfl⟩)
        have he1_neb : ∀ b, (d0, some b0).2 = some b → ¬ e.1 = b := by
          intro b hb
          cases hb
          intro h
          exact hDB e.1 (by simp [List.mem_map.mpr ⟨e, he, rfl⟩]) b0 hb0mem h
        refine ⟨?_, ?_⟩
        · rw [hfold, fileRollbackStep_read_other _ _ e.1 he1_ne he1_neb]
          exact hres.1
        · intro b hb
          have hbmem : b ∈ t.filterMap (·.2) := List.mem_filterMap.mpr ⟨e, he, hb⟩
          have hb_ne : ¬ b = d0 := by
            intro h
            exact hDB d0 (by simp) b (hsubB b hbmem) h.symm
          have hb_neb : ∀ b', (d0, some b0).2 = some b' → ¬ b = b' := by
            intro b' hb' h
            cases hb'
            exact hb0 (h ▸ hbmem)
          rw [hfold, fileRollbackStep_read_other _ _ b hb_ne hb_neb]
          exact hres.2 b hb

/-! Lemmas about the tracked-directory rollback phase. -/

theorem rollbackDirs_eq_foldr (fs : FS) (l : List FsPath) :
    rollbackDirs fs l = l.foldr (fun d acc => dirRollbackStep acc d) fs := by
  unfold rollbackDirs
  rw [List.foldl_reverse]

theorem dirRollbackStep_files (fs : FS) (d : FsPath) :
    (dirRollbackStep fs d).files = fs.files := by
  unfold dirRollbackStep FS.rmdir
  split
  · split <;> rfl
  · rfl

theorem rollbackDirs_files (fs : FS) (l : List FsPath) :
    (rollbackDirs fs l).files = fs.files := by
  rw [rollbackDirs_eq_foldr]
  induction l with
  | nil => rfl
  | cons d t ih => simpa [List.foldr_cons, dirRollbackStep_files] using ih

theorem dirExists_rmdir (fs : FS) (p d : FsPath) :
    (fs.rmdir p).dirExists d = (fs.dirExists d && ¬ d = p) := by
  unfold FS.rmdir FS.dirExists
  by_cases h : d = p
  · subst h
    simp [List.mem_filter]
  · simp [List.mem_filter, h]

theorem dirRollbackStep_dirExists_ne (fs : FS) (p d : FsPath) (h : ¬ d = p) :
    (dirRollbackStep fs p).dirExists d = fs.dirExists d := by
  unfold dirRollbackStep
  split
  · split
    · rfl
    · rw [dirExists_rmdir]
      simp [h]
  · rfl

theorem dirRollbackStep_dirs_sub (fs : FS) (p d : FsPath)
    (h : (dirRollbackStep fs p).dirExists d = true) : fs.dirExists d = true := by
  unfold dirRollbackStep at h
  split at h
  · split at h
    · exact h
    · rw [dirExists_rmdir] at h
      exact (Bool.and_eq_true_iff.mp h).1
  · exact h

theorem rollbackDirs_dirs_sub (fs : FS) (l : List FsPath) (d : FsPath)
    (h : (rollbackDirs fs l).dirExists d = true) : fs.dirExists d = true := by
  rw [rollbackDirs_eq_foldr] at h
  induction l with
  | nil => exact h
  | cons p t ih =>
    rw [List.foldr_cons] at h
    exact ih (dirRollbackStep_dirs_sub _ p d h)

theorem dirHasEntry_mono (fs fs' : FS) (d : FsPath)
    (hf : fs'.files = fs.files)
    (hd : ∀ p, fs'.dirExists p = true → fs.dirExists p = true)
    (h : fs'.dirHasEntry d = true) : fs.dirHasEntry d = true := by
  unfold FS.dirHasEntry at h ⊢
  rcases Bool.or_eq_true_iff.mp h with h | h
  · rw [hf] at h
    exact Bool.or_eq_true_iff.mpr (Or.inl h)
  · rcases List.any_eq_true.mp h with ⟨p, hp, hsp⟩
    have : fs.dirExists p = true := hd p (by
      unfold FS.dirExists
      simpa using hp)
    refine Bool.or_eq_true_iff.mpr (Or.inr (List.any_eq_true.mpr ⟨p, ?_, hsp⟩))
    unfold FS.dirExists at this
    simpa using this

/-- The directory rollback phase never removes a non-empty directory: any
tracked-or-untracked directory that it removed was empty in the final state
(directory emptiness only shrinks during the phase, since files are untouched
and directories are only removed). -/
theorem rollbackDirs_removed_empty (l : List FsPath) (fs : FS) :
    ∀ d, fs.dirExists d = true → (rollbackDirs fs l).dirExists d = false →
      (rollbackDirs fs l).dirHasEntry d = false := by
  induction l generalizing fs with
  | nil =>
    intro d h1 h2
    rw [rollbackDirs_eq_foldr] at h2
    simp only [List.foldr_nil] at h2
    rw [h1] at h2
    cases h2
  | cons p t ih =>
    have hfold : rollbackDirs fs (p :: t) =
        dirRollbackStep (rollbackDirs fs t) p := by
      rw [rollbackDirs_eq_foldr, List.foldr_cons, ← rollbackDirs_eq_foldr]
    intro d h1 h2
    rw [hfold] at h2 ⊢
    set g := rollbackDirs fs t with hg
    have hstep_files : (dirRollbackStep g p).files = g.files :=
      dirRollbackStep_files g p
    have hstep_sub : ∀ q, (dirRollbackStep g p).dirExists q = true →
        g.dirExists q = true := fun q hq => dirRollbackStep_dirs_sub g p q hq
    by_cases hdp : d = p
    · subst hdp
      by_cases hge : g.dirExists d = true
      · by_cases hentry : g.dirHasEntry d = true
        · -- the step kept d, contradicting its disappearance
          unfold dirRollbackStep at h2
          rw [if_pos hge, if_pos hentry] at h2
          rw [hge] at h2
          cases h2
        · -- removed because empty in g; still empty afterwards
          unfold dirRollbackStep
          rw [if_pos hge, if_neg hentry]
          cases hres : (g.rmdir d).dirHasEntry d
          · rfl
          · exfalso
            apply hentry
            apply dirHasEntry_mono g (g.rmdir d) d
            · unfold FS.rmdir
              rfl
            · intro q hq
              rw [dirExists_rmdir] at hq
              exact (Bool.and_eq_true_iff.mp hq).1
            · exact hres
      · -- d already gone before the step
        unfold dirRollbackStep at h2 ⊢
        rw [if_neg hge] at h2 ⊢
        exact ih fs d h1 h2
    · -- d untouched by the step
      rw [dirRollbackStep_dirExists_ne g p d hdp] at h2
      have hres := ih fs d h1 h2
      cases hr : (dirRollbackStep g p).dirHasEntry d
      · rfl
      · have : g.dirHasEntry d = true :=
          dirHasEntry_mono g (dirRollbackStep g p) d hstep_files hstep_sub hr
        rw [hres] at this
        cases this

/-! Lemmas about the manifest-restore step. -/

theorem manifestRollback_read_other (fs : FS) (t : Txn) (q : FsPath)
    (h1 : ¬ q = t.manifestPath) (h2 : ¬ q = t.backupPath) :
    (manifestRollback fs t).read q = fs.read q := by
  unfold manifestRollback
  split
  · split
    · rw [read_moveFile_other _ _ _ _ h2 h1, read_deleteFile]
      simp [h1]
    · rw [read_moveFile_other _ _ _ _ h2 h1]
  · rfl

theorem manifestRollback_restore (fs : FS) (t : Txn) (c : FContent)
    (hb : fs.read t.backupPath = some c) (hne : ¬ t.backupPath = t.manifestPath) :
    (manifestRollback fs t).read t.manifestPath = some c ∧
      (manifestRollback fs t).read t.backupPath = none := by
  have hbe : fs.fileExists t.backupPath = true := by
    rw [fileExists_iff_read]
    exact ⟨c, hb⟩
  unfold manifestRollback
  rw [if_pos hbe]
  split
  · have hb' : (fs.deleteFile t.manifestPath).read t.backupPath = some c := by
      rw [read_deleteFile]
      simp [hne, hb]
    exact ⟨read_moveFile_dst _ _ _ c hb', read_moveFile_src _ _ _ c hb' hne⟩
  · exact ⟨read_moveFile_dst _ _ _ c hb, read_moveFile_src _ _ _ c hb hne⟩

theorem manifestRollback_dirs (fs : FS) (t : Txn) :
    (manifestRollback fs t).dirs = fs.dirs := by
  unfold manifestRollback
  split
  · split
    · rw [dirs_moveFile, dirs_deleteFile]
    · rw [dirs_moveFile]
  · rfl

theorem read_eq_of_files_eq (fs fs' : FS) (h : fs'.files = fs.files)
    (p : FsPath) : fs'.read p = fs.read p := by
  unfold FS.read
  rw [h]

theorem dirExists_eq_of_dirs_eq (fs fs' : FS) (h : fs'.dirs = fs.dirs)
    (p : FsPath) : fs'.dirExists p = fs.dirExists p := by
  unfold FS.dirExists
  rw [h]

/-- C1: when an exception is raised inside an uncommitted transaction scope,
`InstallationTransaction.__exit__` rolls back: every tracked file with a
prior-content backup is restored to the backup's content (and the backup
file is consumed), every tracked file without a backup ends up absent
(deleted if it existed), every tracked directory is removed only if it is
still empty (a tracked directory that was removed has no remaining entry),
and, if a manifest backup exists, the manifest file is restored from it.
Hypotheses record the transaction protocol: distinct destinations, distinct
existing backups, and no aliasing among destinations, backups, the manifest
and its backup. -/
theorem c1_rollback_restores_tracked_state (fs : FS) (t : Txn)
    (hcommit : t.committed = false)
    (hD : (t.trackedFiles.map (·.1)).Nodup)
    (hB : (t.trackedFiles.filterMap (·.2)).Nodup)
    (hDB : ∀ d ∈ t.trackedFiles.map (·.1),
      ∀ b ∈ t.trackedFiles.filterMap (·.2), ¬ d = b)
    (hEx : ∀ b ∈ t.trackedFiles.filterMap (·.2), fs.fileExists b = true)
    (hM1 : ∀ e ∈ t.trackedFiles, ¬ t.manifestPath = e.1)
    (hM2 : ∀ e ∈ t.trackedFiles, ∀ b, e.2 = some b → ¬ t.manifestPath = b)
    (hB1 : ∀ e ∈ t.trackedFiles, ¬ t.backupPath = e.1)
    (hB2 : ∀ e ∈ t.trackedFiles, ∀ b, e.2 = some b → ¬ t.backupPath = b)
    (hBM : ¬ t.backupPath = t.manifestPath) :
    (∀ e ∈ t.trackedFiles, ∀ b, e.2 = some b →
        (exitTxn true fs t).1.read e.1 = fs.read b ∧
        (exitTxn true fs t).1.read b = none) ∧
    (∀ e ∈ t.trackedFiles, e.2 = none →
        (exitTxn true fs t).1.fileExists e.1 = false) ∧
    (∀ c, fs.read t.backupPath = some c →
        (exitTxn true fs t).1.read t.manifestPath = some c ∧
        (exitTxn true fs t).1.read t.backupPath = none) ∧
    (∀ d ∈ t.trackedDirs, fs.dirExists d = true →
        (exitTxn true fs t).1.dirExists d = false →
        (exitTxn true fs t).1.dirHasEntry d = false) := by
  have hexit : (exitTxn true fs t).1 =
      rollbackDirs (rollbackFiles (manifestRollback fs t) t.trackedFiles)
        t.trackedDirs := by
    unfold exitTxn rollbackFS
    rw [if_pos ⟨rfl, by rw [hcommit]; exact Bool.false_ne_true⟩]
  rw [hexit]
  set fs1 := manifestRollback fs t with hfs1
  set fs2 := rollbackFiles fs1 t.trackedFiles with hfs2
  set fs3 := rollbackDirs fs2 t.trackedDirs with hfs3
  have hreads3 : ∀ p, fs3.read p = fs2.read p :=
    fun p => read_eq_of_files_eq fs2 fs3 (rollbackDirs_files fs2 t.trackedDirs) p
  have hreads1 : ∀ e ∈ t.trackedFiles, ∀ b, e.2 = some b →
      fs1.read b = fs.read b := by
    intro e he b heb
    exact manifestRollback_read_other fs t b
      (fun h => hM2 e he b heb h.symm) (fun h => hB2 e he b heb h.symm)
  have hEx1 : ∀ b ∈ t.trackedFiles.filterMap (·.2), fs1.fileExists b = true := by
    intro b hb
    rcases List.mem_filterMap.mp hb with ⟨e, he, he2⟩
    have hr := hreads1 e he b he2
    have hex := hEx b hb
    unfold FS.fileExists at hex ⊢
    rw [hr]
    exact hex
  have hrestore := rollbackFiles_restore t.trackedFiles fs1 hD hB hDB hEx1
  refine ⟨?_, ?_, ?_, ?_⟩
  · intro e he b heb
    have h1 := (hrestore e he).1
    rw [heb] at h1
    constructor
    · rw [hreads3, h1]
      simp only [Option.some_bind]
      exact hreads1 e he b heb
    · rw [hreads3]
      exact (hrestore e he).2 b heb
  · intro e he heb
    have h1 := (hrestore e he).1
    rw [heb] at h1
    unfold FS.fileExists
    rw [hreads3, h1]
    rfl
  · intro c hc
    have hres := manifestRollback_restore fs t c hc hBM
    have hfm : fs2.read t.manifestPath = fs1.read t.manifestPath :=
      rollbackFiles_read_other fs1 t.trackedFiles t.manifestPath hM1 hM2
    have hfb : fs2.read t.backupPath = fs1.read t.backupPath :=
      rollbackFiles_read_other fs1 t.trackedFiles t.backupPath hB1 hB2
    exact ⟨by rw [hreads3, hfm]; exact hres.1, by rw [hreads3, hfb]; exact hres.2⟩
  · intro d _ h1 h2
    have hdirs12 : fs2.dirs = fs.dirs := by
      rw [hfs2, rollbackFiles_dirs, hfs1, manifestRollback_dirs]
    have h1' : fs2.dirExists d = true := by
      rw [dirExists_eq_of_dirs_eq fs fs2 hdirs12 d]
      exact h1
    exact rollbackDirs_removed_empty t.trackedDirs fs2 d h1' h2

/-- Witness for C1: the rollback guarantees instantiated at the concrete
mid-installation state `fsMid` with transaction `txnA`: the overwritten file
gets its original content back, the backup and the fresh file are gone, the
manifest is restored from its backup, and the fresh directory is left with
no entry (it is in fact removed). -/
theorem c1_witness :
    (exitTxn true fsMid txnA).1.read ["Assets", "x.txt"] =
      fsMid.read ["Assets", "x.txt.usl_backup"] ∧
    (exitTxn true fsMid txnA).1.read ["Assets", "x.txt.usl_backup"] = none ∧
    (exitTxn true fsMid txnA).1.fileExists ["Assets", "Sub", "y.txt"] = false ∧
    (exitTxn true fsMid txnA).1.read ["Packages", "manifest.json"] =
      some (.jmani [("dependencies", .tbl [])]) ∧
    (exitTxn true fsMid txnA).1.read ["Packages", "manifest.backup"] = none ∧
    (exitTxn true fsMid txnA).1.dirHasEntry ["Assets", "Sub"] = false := by
  have hmain := c1_rollback_restores_tracked_state fsMid txnA (by decide)
    (by decide) (by decide) (by decide) (by decide) (by decide) (by decide)
    (by decide) (by decide) (by decide)
  have hx := hmain.1 (["Assets", "x.txt"], some ["Assets", "x.txt.usl_backup"])
    (by decide) ["Assets", "x.txt.usl_backup"] rfl
  have hy := hmain.2.1 (["Assets", "Sub", "y.txt"], none) (by decide) rfl
  have hm := hmain.2.2.1 (.jmani [("dependencies", .tbl [])]) (by decide)
  have hd := hmain.2.2.2 ["Assets", "Sub"] (by decide) (by decide) (by decide)
  exact ⟨hx.1, hx.2, hy, hm.1, hm.2, hd⟩

/-- C9: once `commit()` has set the committed flag, a later exception in the
transaction scope triggers no rollback action in
`InstallationTransaction.__exit__` — the filesystem is returned untouched
(no file restored or deleted, no directory removed, no manifest backup
restored) — and `__exit__` returns `False`, so the exception propagates
unchanged. -/
theorem c9_committed_exit_is_noop (fs : FS) (t : Txn)
    (h : t.committed = true) : exitTxn true fs t = (fs, false) := by
  unfold exitTxn
  rw [if_neg]
  intro hc
  rw [h] at hc
  exact hc.2 rfl

/-- Witness for C9: exiting with an exception after commit leaves the
concrete mid-installation filesystem exactly as it is. -/
theorem c9_witness :
    exitTxn true fsMid { txnA with committed := true } = (fsMid, false) :=
  c9_committed_exit_is_noop fsMid { txnA with committed := true } (by decide)

/-- C2: `write_manifest_atomic` raises `ManifestError` exactly when one of
its three fallible steps fails (write, re-parse, replace); on failure the
temporary sibling file is deleted and every other path — in particular the
target manifest — is unchanged; on success the target holds the serialized
manifest, the temporary file is gone, and every other path is unchanged;
directories are never touched. -/
theorem c2_write_manifest_atomic_safe (fs : FS) (p : FsPath) (m : Manifest)
    (faults : WriteFaults) (hne : ¬ withSuffixPath p ".tmp" = p) :
    ((writeManifestAtomic fs p m faults).1 ≠ none ↔
      (faults.duringWrite = true ∨ faults.duringParse = true ∨
        faults.duringReplace = true)) ∧
    ((writeManifestAtomic fs p m faults).1 ≠ none →
      (∀ q, ¬ q = withSuffixPath p ".tmp" →
        (writeManifestAtomic fs p m faults).2.read q = fs.read q) ∧
      (writeManifestAtomic fs p m faults).2.read (withSuffixPath p ".tmp") =
        none) ∧
    ((writeManifestAtomic fs p m faults).1 = none →
      (writeManifestAtomic fs p m faults).2.read p = some (.jmani m) ∧
      (writeManifestAtomic fs p m faults).2.read (withSuffixPath p ".tmp") =
        none ∧
      (∀ q, ¬ q = p → ¬ q = withSuffixPath p ".tmp" →
        (writeManifestAtomic fs p m faults).2.read q = fs.read q)) ∧
    (writeManifestAtomic fs p m faults).2.dirs = fs.dirs := by
  set tmp := withSuffixPath p ".tmp" with htmp
  have hwtmp : ∀ c : FContent, (fs.writeFile tmp c).fileExists tmp = true := by
    intro c
    unfold FS.fileExists
    rw [read_writeFile]
    simp
  have hcleanup : ∀ c : FContent,
      ((fs.writeFile tmp c).deleteFile tmp).read tmp = none := by
    intro c
    rw [read_deleteFile]
    simp
  have hcleanother : ∀ (c : FContent) q, ¬ q = tmp →
      ((fs.writeFile tmp c).deleteFile tmp).read q = fs.read q := by
    intro c q hq
    rw [read_deleteFile, read_writeFile]
    simp [hq]
  obtain ⟨fw, fp, fr⟩ := faults
  cases fw
  · cases fp
    · cases fr
      · -- success path
        have hres : writeManifestAtomic fs p m ⟨false, false, false⟩ =
            (none, (fs.writeFile tmp (.jmani m)).moveFile tmp p) := by
          unfold writeManifestAtomic
          rw [← htmp]
          simp only [Bool.false_eq_true, if_false]
          rw [read_writeFile]
          simp [parseContent]
        rw [hres]
        have hrd : (fs.writeFile tmp (.jmani m)).read tmp = some (.jmani m) := by
          rw [read_writeFile]
          simp
        refine ⟨by simp, by simp, ?_, ?_⟩
        · intro _
          refine ⟨read_moveFile_dst _ _ _ _ hrd, ?_, ?_⟩
          · exact read_moveFile_src _ _ _ _ hrd hne
          · intro q hq1 hq2
            rw [read_moveFile_other _ _ _ _ hq2 hq1, read_writeFile]
            simp [hq2]
        · rw [dirs_moveFile, dirs_writeFile]
      · -- failure in os.replace
        have hres : writeManifestAtomic fs p m ⟨false, false, true⟩ =
            (some .ioErr, (fs.writeFile tmp (.jmani m)).deleteFile tmp) := by
          unfold writeManifestAtomic
          rw [← htmp]
          simp only [Bool.false_eq_true, if_false]
          rw [read_writeFile]
          simp [parseContent, hwtmp, FS.fileExists, read_writeFile]
        rw [hres]
        refine ⟨by simp, ?_, ?_, ?_⟩
        · intro _
          exact ⟨fun q hq => hcleanother _ q hq, hcleanup _⟩
        · intro h
          cases h
        · rw [dirs_deleteFile, dirs_writeFile]
    · -- failure in the re-parse
      have hres : writeManifestAtomic fs p m ⟨false, true, fr⟩ =
          (some .jsonErr, (fs.writeFile tmp (.jmani m)).deleteFile tmp) := by
        unfold writeManifestAtomic
        rw [← htmp]
        simp only [Bool.false_eq_true, if_false]
        simp [parseContent, hwtmp, FS.fileExists, read_writeFile]
      rw [hres]
      refine ⟨by simp, ?_, ?_, ?_⟩
      · intro _
        exact ⟨fun q hq => hcleanother _ q hq, hcleanup _⟩
      · intro h
        cases h
      · rw [dirs_deleteFile, dirs_writeFile]
  · -- failure during the temp write
    have hres : writeManifestAtomic fs p m ⟨true, fp, fr⟩ =
        (some .ioErr, (fs.writeFile tmp .truncated).deleteFile tmp) := by
      unfold writeManifestAtomic
      rw [← htmp]
      simp [parseContent, hwtmp, FS.fileExists, read_writeFile]
    rw [hres]
    refine ⟨by simp, ?_, ?_, ?_⟩
    · intro _
      exact ⟨fun q hq => hcleanother _ q hq, hcleanup _⟩
    · intro h
      cases h
    · rw [dirs_deleteFile, dirs_writeFile]

/-- Witness for C2: a fault injected between temp-write and rename on the
concrete project filesystem raises `ManifestError`, leaves the original
manifest byte-for-byte unchanged, and leaves no temporary file behind. -/
theorem c2_witness :
    (writeManifestAtomic fsA ["Packages", "manifest.json"]
        [("dependencies", .tbl [])] ⟨false, false, true⟩).1 ≠ none ∧
    (writeManifestAtomic fsA ["Packages", "manifest.json"]
        [("dependencies", .tbl [])] ⟨false, false, true⟩).2.read
        ["Packages", "manifest.json"] = fsA.read ["Packages", "manifest.json"] ∧
    (writeManifestAtomic fsA ["Packages", "manifest.json"]
        [("dependencies", .tbl [])] ⟨false, false, true⟩).2.read
        ["Packages", "manifest.tmp"] = none ∧
    (writeManifestAtomic fsA ["Packages", "manifest.json"]
        [("dependencies", .tbl [])] ⟨false, false, true⟩).2.dirs = fsA.dirs := by
  have hmain := c2_write_manifest_atomic_safe fsA ["Packages", "manifest.json"]
    [("dependencies", .tbl [])] ⟨false, false, true⟩ (by decide)
  have herr : (writeManifestAtomic fsA ["Packages", "manifest.json"]
      [("dependencies", .tbl [])] ⟨false, false, true⟩).1 ≠ none :=
    hmain.1.mpr (Or.inr (Or.inr rfl))
  have hfail := hmain.2.1 herr
  refine ⟨herr, hfail.1 ["Packages", "manifest.json"] (by decide), ?_, hmain.2.2.2⟩
  have htmp : withSuffixPath ["Packages", "manifest.json"] ".tmp" =
      ["Packages", "manifest.tmp"] := by decide
  rw [← htmp]
  exact hfail.2

/-! Lemmas about the descriptor parser. -/

theorem parseStep_ok_inv (st : PState) (n : Nat) (l : List Char) (st' : PState)
    (h : parseStep st n l = .ok st') (hP : PInv st) :
    PInv st' ∧
    (st'.scriptDeps = st.scriptDeps ∨
      ∃ nm, entryNameOf l = some nm ∧ st'.scriptDeps = st.scriptDeps ++ [nm]) ∧
    (st'.packageDeps = st.packageDeps ∨
      ∃ nm, entryNameOf l = some nm ∧ st'.packageDeps = st.packageDeps ++ [nm]) := by
  obtain ⟨h1, h2, h3, h4, h5, h6, h7, h8, h9⟩ := hP
  by_cases hc1 : (pyStrip l = [] ∨ (pyStrip l).headD ' ' = '#')
  · simp only [parseStep, if_pos hc1] at h
    cases h
    exact ⟨⟨h1, h2, h3, h4, h5, h6, h7, h8, h9⟩, Or.inl rfl, Or.inl rfl⟩
  · simp only [parseStep, if_neg hc1] at h
    by_cases hc2 : pyLower (pyStrip l) = "scripts:".toList
    · simp only [if_pos hc2] at h
      by_cases hc3 : st.sectionsSeen.contains DepSect.scripts = true
      · simp only [if_pos hc3] at h
        cases h
      · simp only [if_neg hc3] at h
        cases h
        refine ⟨⟨h1, h2, h3, h4, ?_, ?_, ?_, ?_, ?_⟩, Or.inl rfl, Or.inl rfl⟩
        · intro _ nm hnm
          have hempty : st.scriptDeps = [] := h7 (by simpa using hc3)
          rw [hempty] at hnm
          cases hnm
        · intro hc
          cases hc
        · intro hns
          exact h7 (fun hmem => hns (by simp [hmem]))
        · intro hns
          exact h8 (fun hmem => hns (by simp [hmem]))
        · intro x hx
          cases hx
          simp
    · simp only [if_neg hc2] at h
      by_cases hc4 : pyLower (pyStrip l) = "packages:".toList
      · simp only [if_pos hc4] at h
        by_cases hc5 : st.sectionsSeen.contains DepSect.packages = true
        · simp only [if_pos hc5] at h
          cases h
        · simp only [if_neg hc5] at h
          cases h
          refine ⟨⟨h1, h2, h3, h4, ?_, ?_, ?_, ?_, ?_⟩, Or.inl rfl, Or.inl rfl⟩
          · intro hc
            cases hc
          · intro _ nm hnm
            have hempty : st.packageDeps = [] := h8 (by simpa using hc5)
            rw [hempty] at hnm
            cases hnm
          · intro hns
            exact h7 (fun hmem => hns (by simp [hmem]))
          · intro hns
            exact h8 (fun hmem => hns (by simp [hmem]))
          · intro x hx
            cases hx
            simp
      · simp only [if_neg hc4] at h
        by_cases hc6 : (st.cur = some DepSect.scripts ∧ (pyStrip l).headD ' ' = '-')
        · simp only [if_pos hc6] at h
          by_cases hc7 : ¬ validateDependencyName (pyStrip ((pyStrip l).drop 1)) = true
          · simp only [if_pos hc7] at h
            cases h
            exact ⟨⟨h1, h2, h3, h4, h5, h6, h7, h8, h9⟩, Or.inl rfl, Or.inl rfl⟩
          · simp only [if_neg hc7] at h
            have hvalid : validateDependencyName (pyStrip ((pyStrip l).drop 1)) = true := by
              cases hv : validateDependencyName (pyStrip ((pyStrip l).drop 1))
              · exact absurd (by rw [hv]; simp) hc7
              · rfl
            by_cases hc8 : st.seenInSection.contains (pyStrip ((pyStrip l).drop 1)) = true
            · simp only [if_pos hc8] at h
              cases h
              exact ⟨⟨h1, h2, h3, h4, h5, h6, h7, h8, h9⟩, Or.inl rfl, Or.inl rfl⟩
            · simp only [if_neg hc8] at h
              cases h
              have hnotin : pyStrip ((pyStrip l).drop 1) ∉ st.scriptDeps := by
                intro hmem
                exact hc8 (by simpa using h5 hc6.1 _ hmem)
              refine ⟨⟨?_, h2, ?_, h4, ?_, ?_, ?_, ?_, h9⟩, ?_, Or.inl rfl⟩
              · have hnotin2 : pyStrip ((pyStrip l).tail) ∉ st.scriptDeps := by
                  simpa using hnotin
                simp [List.nodup_append, h1, hnotin2]
              · intro nm hnm
                rcases List.mem_append.mp hnm with hnm | hnm
                · exact h3 nm hnm
                · rw [List.mem_singleton.mp hnm]
                  exact hvalid
              · intro _ nm hnm
                rcases List.mem_append.mp hnm with hnm | hnm
                · simp [h5 hc6.1 nm hnm]
                · simp [List.mem_singleton.mp hnm]
              · intro hc
                rw [hc6.1] at hc
                cases hc
              · intro hns
                exact absurd (h9 _ hc6.1) hns
              · intro hns
                exact h8 hns
              · refine Or.inr ⟨pyStrip ((pyStrip l).drop 1), ?_, rfl⟩
                unfold entryNameOf
                rw [if_pos hc6.2]
        · simp only [if_neg hc6] at h
          by_cases hc9 : (st.cur = some DepSect.packages ∧ (pyStrip l).headD ' ' = '-')
          · simp only [if_pos hc9] at h
            by_cases hc10 : ¬ validatePackageId (pyStrip ((pyStrip l).drop 1)) = true
            · simp only [if_pos hc10] at h
              cases h
              exact ⟨⟨h1, h2, h3, h4, h5, h6, h7, h8, h9⟩, Or.inl rfl, Or.inl rfl⟩
            · simp only [if_neg hc10] at h
              have hvalid : validatePackageId (pyStrip ((pyStrip l).drop 1)) = true := by
                cases hv : validatePackageId (pyStrip ((pyStrip l).drop 1))
                · exact absurd (by rw [hv]; simp) hc10
                · rfl
              by_cases hc11 : st.seenInSection.contains (pyStrip ((pyStrip l).drop 1)) = true
              · simp only [if_pos hc11] at h
                cases h
                exact ⟨⟨h1, h2, h3, h4, h5, h6, h7, h8, h9⟩, Or.inl rfl, Or.inl rfl⟩
              · simp only [if_neg hc11] at h
                cases h
                have hnotin : pyStrip ((pyStrip l).drop 1) ∉ st.packageDeps := by
                  intro hmem
                  exact hc11 (by simpa using h6 hc9.1 _ hmem)
                refine ⟨⟨h1, ?_, h3, ?_, ?_, ?_, ?_, ?_, h9⟩, Or.inl rfl, ?_⟩
                · have hnotin2 : pyStrip ((pyStrip l).tail) ∉ st.packageDeps := by
                    simpa using hnotin
                  simp [List.nodup_append, h2, hnotin2]
                · intro nm hnm
                  rcases List.mem_append.mp hnm with hnm | hnm
                  · exact h4 nm hnm
                  · rw [List.mem_singleton.mp hnm]
                    exact hvalid
                · intro hc
                  rw [hc9.1] at hc
                  cases hc
                · intro _ nm hnm
                  rcases List.mem_append.mp hnm with hnm | hnm
                  · simp [h6 hc9.1 nm hnm]
                  · simp [List.mem_singleton.mp hnm]
                · intro hns
                  exact h7 hns
                · intro hns
                  exact absurd (h9 _ hc9.1) hns
                · refine Or.inr ⟨pyStrip ((pyStrip l).drop 1), ?_, rfl⟩
                  unfold entryNameOf
                  rw [if_pos hc9.2]
          · simp only [if_neg hc9] at h
            cases h
            exact ⟨⟨h1, h2, h3, h4, h5, h6, h7, h8, h9⟩, Or.inl rfl, Or.inl rfl⟩

theorem parseLinesFrom_inv (lines : List (List Char)) :
    ∀ st n st', parseLinesFrom st n lines = .ok st' → PInv st →
      PInv st' ∧
      (∃ δ, st'.scriptDeps = st.scriptDeps ++ δ ∧ δ.Sublist (entryNames lines)) ∧
      (∃ δ, st'.packageDeps = st.packageDeps ++ δ ∧
        δ.Sublist (entryNames lines)) := by
  induction lines with
  | nil =>
    intro st n st' h hP
    unfold parseLinesFrom at h
    cases h
    exact ⟨hP, ⟨[], by simp, by simp [entryNames]⟩, ⟨[], by simp, by simp [entryNames]⟩⟩
  | cons l ls ih =>
    intro st n st' h hP
    unfold parseLinesFrom at h
    cases hstep : parseStep st n l with
    | error e =>
      rw [hstep] at h
      cases h
    | ok st1 =>
      rw [hstep] at h
      obtain ⟨hP1, hs1, hp1⟩ := parseStep_ok_inv st n l st1 hstep hP
      obtain ⟨hP2, ⟨δ, hδ, hδsub⟩, ⟨δ2, hδ2, hδ2sub⟩⟩ := ih st1 (n + 1) st' h hP1
      have hsub_tail : (entryNames ls).Sublist (entryNames (l :: ls)) := by
        unfold entryNames
        rw [List.filterMap_cons]
        cases entryNameOf l
        · exact List.Sublist.refl _
        · exact List.sublist_cons_self _ _
      refine ⟨hP2, ?_, ?_⟩
      · rcases hs1 with hs1 | ⟨nm, hnm, hs1⟩
        · exact ⟨δ, by rw [hδ, hs1], hδsub.trans hsub_tail⟩
        · refine ⟨nm :: δ, by rw [hδ, hs1]; simp, ?_⟩
          unfold entryNames
          rw [List.filterMap_cons, hnm]
          exact List.Sublist.cons₂ nm hδsub
      · rcases hp1 with hp1 | ⟨nm, hnm, hp1⟩
        · exact ⟨δ2, by rw [hδ2, hp1], hδ2sub.trans hsub_tail⟩
        · refine ⟨nm :: δ2, by rw [hδ2, hp1]; simp, ?_⟩
          unfold entryNames
          rw [List.filterMap_cons, hnm]
          exact List.Sublist.cons₂ nm hδ2sub

theorem pinv_init : PInv PState.init := by
  unfold PInv PState.init
  refine ⟨List.nodup_nil, List.nodup_nil, ?_, ?_, ?_, ?_, ?_, ?_, ?_⟩ <;>
    simp

/-- C7: `parse_dependencies_file` drops grammatically invalid entries and
duplicate entries non-fatally, returning the remaining valid entries
duplicate-free and in file order (a sublist of the dash entries); concretely,
`- Bad!Name` under `scripts:` is skipped with a warning, a duplicated entry
is skipped with a warning, and a second `packages:` section header raises
`InvalidDependencyFileError`. -/
theorem c7_descriptor_validation :
    (∀ lines st', parseDependenciesLines lines = .ok st' →
      st'.scriptDeps.Nodup ∧ st'.packageDeps.Nodup ∧
      (∀ nm ∈ st'.scriptDeps, validateDependencyName nm = true) ∧
      (∀ nm ∈ st'.packageDeps, validatePackageId nm = true) ∧
      st'.scriptDeps.Sublist (entryNames lines) ∧
      st'.packageDeps.Sublist (entryNames lines)) ∧
    (parseDependenciesLines linesBadName).map
        (fun st => (st.scriptDeps, st.warnings)) =
      .ok (["good".toList], [⟨2, "Bad!Name".toList⟩]) ∧
    (parseDependenciesLines linesDupEntry).map
        (fun st => (st.scriptDeps, st.warnings)) =
      .ok (["foo".toList], [⟨3, "foo".toList⟩]) ∧
    parseDependenciesLines linesDupHeader = .error () := by
  refine ⟨?_, by rfl, by rfl, by rfl⟩
  intro lines st' h
  obtain ⟨hP, ⟨δ, hδ, hδsub⟩, ⟨δ2, hδ2, hδ2sub⟩⟩ :=
    parseLinesFrom_inv lines PState.init 1 st' h pinv_init
  obtain ⟨h1, h2, h3, h4, _, _, _, _, _⟩ := hP
  have hδ' : st'.scriptDeps = δ := by simpa [PState.init] using hδ
  have hδ2' : st'.packageDeps = δ2 := by simpa [PState.init] using hδ2
  exact ⟨h1, h2, h3, h4, hδ' ▸ hδsub, hδ2' ▸ hδ2sub⟩

/-- Witness for C7: the universally quantified guarantees instantiated at
the `- Bad!Name` descriptor: the surviving entry list is duplicate-free, its
entry `good` is grammatically valid, and both result lists are in-order
sublists of the file entries. -/
theorem c7_witness :
    stBadName.scriptDeps.Nodup ∧ stBadName.packageDeps.Nodup ∧
    validateDependencyName "good".toList = true ∧
    stBadName.scriptDeps.Sublist (entryNames linesBadName) ∧
    stBadName.packageDeps.Sublist (entryNames linesBadName) := by
  have hmain := c7_descriptor_validation.1 linesBadName stBadName (by rfl)
  exact ⟨hmain.1, hmain.2.1, hmain.2.2.1 "good".toList (by decide),
    hmain.2.2.2.2.1, hmain.2.2.2.2.2⟩

/-- C10: in `parse_dependencies_file`, a dash-entry line that appears before
any section header (current section still `None`) matches no branch of the
loop body: the parser state is returned unchanged — no entry is added, no
warning is emitted, and no error is raised. -/
theorem c10_orphan_entry_ignored (st : PState) (n : Nat) (l : List Char)
    (hcur : st.cur = none) (hdash : (pyStrip l).headD ' ' = '-') :
    parseStep st n l = .ok st := by
  have hne : ¬ pyStrip l = [] := by
    intro he
    rw [he] at hdash
    have hsp : (([] : List Char)).headD ' ' = ' ' := rfl
    rw [hsp] at hdash
    exact absurd hdash (by decide)
  obtain ⟨c, cs, hcons⟩ : ∃ c cs, pyStrip l = c :: cs := by
    cases hpl : pyStrip l with
    | nil => exact absurd hpl hne
    | cons c cs => exact ⟨c, cs, rfl⟩
  have hc : c = '-' := by
    rw [hcons] at hdash
    have hhd : (c :: cs).headD ' ' = c := rfl
    rw [hhd] at hdash
    exact hdash
  subst hc
  have hc1 : ¬ (pyStrip l = [] ∨ (pyStrip l).headD ' ' = '#') := by
    intro hor
    rcases hor with hor | hor
    · exact hne hor
    · rw [hcons] at hor
      have hhd : ('-' :: cs).headD ' ' = '-' := rfl
      rw [hhd] at hor
      exact absurd hor (by decide)
  have hlowcons : pyLower (pyStrip l) = '-' :: pyLower cs := by
    rw [hcons]
    rfl
  have hc2 : ¬ pyLower (pyStrip l) = "scripts:".toList := by
    rw [hlowcons]
    intro heq
    injection heq with hh _
    exact absurd hh (by decide)
  have hc4 : ¬ pyLower (pyStrip l) = "packages:".toList := by
    rw [hlowcons]
    intro heq
    injection heq with hh _
    exact absurd hh (by decide)
  have hc6 : ¬ (st.cur = some DepSect.scripts ∧ (pyStrip l).headD ' ' = '-') := by
    intro hand
    rw [hcur] at hand
    cases hand.1
  have hc9 : ¬ (st.cur = some DepSect.packages ∧ (pyStrip l).headD ' ' = '-') := by
    intro hand
    rw [hcur] at hand
    cases hand.1
  simp only [parseStep, if_neg hc1, if_neg hc2, if_neg hc4, if_neg hc6,
    if_neg hc9]

/-- Witness for C10: a dash entry on the first line of a file (before any
header) leaves the initial parser state unchanged. -/
theorem c10_witness :
    parseStep PState.init 1 "- orphan".toList = .ok PState.init :=
  c10_orphan_entry_ignored PState.init 1 "- orphan".toList (by decide)
    (by decide)

/-! Lemmas about association-list manifests. -/

theorem alistGet_append {α : Type} (l₁ l₂ : List (String × α)) (k : String) :
    alistGet (l₁ ++ l₂) k = (alistGet l₁ k).or (alistGet l₂ k) := by
  unfold alistGet
  rw [List.find?_append]
  cases l₁.find? (fun e => e.1 = k) <;> simp

theorem find_map_set {α : Type} (l : List (String × α)) (k : String) (v : α)
    (h : (l.find? (fun e => e.1 = k)).isSome = true) :
    (l.map (fun e => if e.1 = k then (k, v) else e)).find? (fun e => e.1 = k) =
      some (k, v) := by
  induction l with
  | nil => simp at h
  | cons a t ih =>
    by_cases hak : a.1 = k
    · rw [List.map_cons, if_pos hak, List.find?_cons_of_pos _ (by simp)]
    · rw [List.map_cons, if_neg hak, List.find?_cons_of_neg _ (by simpa using hak)]
      apply ih
      rw [List.find?_cons_of_neg _ (by simpa using hak)] at h
      exact h

theorem find_map_set_ne {α : Type} (l : List (String × α)) (k : String) (v : α)
    (k' : String) (h : ¬ k' = k) :
    (l.map (fun e => if e.1 = k then (k, v) else e)).find? (fun e => e.1 = k') =
      l.find? (fun e => e.1 = k') := by
  induction l with
  | nil => rfl
  | cons a t ih =>
    by_cases hak : a.1 = k
    · have hne1 : ¬ k = k' := fun hh => h hh.symm
      have hne2 : ¬ a.1 = k' := fun hh => hne1 (hak ▸ hh)
      rw [List.map_cons, if_pos hak,
        List.find?_cons_of_neg _ (by simpa using hne1),
        List.find?_cons_of_neg _ (by simpa using hne2), ih]
    · rw [List.map_cons, if_neg hak]
      by_cases hak' : a.1 = k'
      · rw [List.find?_cons_of_pos _ (by simpa using hak'),
          List.find?_cons_of_pos _ (by simpa using hak')]
      · rw [List.find?_cons_of_neg _ (by simpa using hak'),
          List.find?_cons_of_neg _ (by simpa using hak'), ih]

theorem alistGet_alistSet_self {α : Type} (l : List (String × α)) (k : String)
    (v : α) : alistGet (alistSet l k v) k = some v := by
  unfold alistSet
  split
  · rename_i hpres
    unfold alistGet
    rw [find_map_set l k v hpres]
    rfl
  · rename_i habs
    rw [alistGet_append]
    have h1 : alistGet l k = none := by
      unfold alistGet
      cases hv : l.find? (fun e => e.1 = k)
      · rfl
      · rw [hv] at habs
        simp at habs
    rw [h1]
    unfold alistGet
    rw [List.find?_cons_of_pos _ (by simp)]
    rfl

theorem alistGet_alistSet_ne {α : Type} (l : List (String × α)) (k : String)
    (v : α) (k' : String) (h : ¬ k' = k) :
    alistGet (alistSet l k v) k' = alistGet l k' := by
  unfold alistSet
  split
  · unfold alistGet
    rw [find_map_set_ne l k v k' h]
  · rw [alistGet_append]
    have h1 : alistGet [(k, v)] k' = none := by
      unfold alistGet
      rw [List.find?_cons_of_neg _ (by simpa using fun hh : k = k' => h hh.symm)]
      rfl
    rw [h1]
    cases alistGet l k' <;> rfl

theorem alistGet_single {α : Type} (k : String) (v : α) (k' : String) (w : α)
    (h : alistGet [(k, v)] k' = some w) : k' = k ∧ w = v := by
  unfold alistGet at h
  by_cases hk : k = k'
  · rw [List.find?_cons_of_pos _ (by simpa using hk)] at h
    simp at h
    exact ⟨hk.symm, h.symm⟩
  · rw [List.find?_cons_of_neg _ (by simpa using hk)] at h
    cases h

/-- Frame and add-only specification of a single `add_package_to_manifest`
call: every other top-level key is untouched, existing dependency entries are
preserved verbatim, any new entry is the added package mapped to `"*"`, and
the returned flag reports whether an insertion happened. -/
theorem addPackageToManifest_spec (pkg : String) (m m' : Manifest)
    (added : Bool) (h : addPackageToManifest pkg m = some (m', added)) :
    ∃ deps deps', manifestDeps m = some deps ∧ manifestDeps m' = some deps' ∧
      (∀ k, ¬ k = "dependencies" → alistGet m' k = alistGet m k) ∧
      (∀ k v, alistGet deps k = some v → alistGet deps' k = some v) ∧
      (∀ k v, alistGet deps' k = some v → alistGet deps k = some v ∨
        (alistGet deps k = none ∧ k = pkg ∧ v = .jstr "*")) ∧
      (added = true ↔ alistGet deps pkg = none) := by
  cases hdep : alistGet m "dependencies" with
  | some mv =>
    cases mv with
    | val j =>
      exfalso
      simp only [addPackageToManifest, hdep, Option.isSome_some, if_true] at h
      exact Option.noConfusion h
    | tbl deps =>
      simp only [addPackageToManifest, hdep, Option.isSome_some, if_true] at h
      by_cases hpk : (alistGet deps pkg).isSome = true
      · rw [if_pos hpk] at h
        cases h
        refine ⟨deps, deps, by simp [manifestDeps, hdep], by simp [manifestDeps, hdep],
          fun k _ => rfl, fun k v hv => hv, fun k v hv => Or.inl hv, ?_⟩
        constructor
        · intro hadd
          cases hadd
        · intro hnone
          rw [hnone] at hpk
          simp at hpk
      · rw [if_neg hpk] at h
        cases h
        have hpknone : alistGet deps pkg = none := by
          cases hv : alistGet deps pkg
          · rfl
          · rw [hv] at hpk
            simp at hpk
        refine ⟨deps, deps ++ [(pkg, .jstr "*")], by simp [manifestDeps, hdep], ?_,
          ?_, ?_, ?_, by simp [hpknone]⟩
        · simp only [manifestDeps, alistGet_alistSet_self]
        · intro k hk
          exact alistGet_alistSet_ne m "dependencies" _ k hk
        · intro k v hv
          rw [alistGet_append, hv]
          rfl
        · intro k v hv
          rw [alistGet_append] at hv
          cases hw : alistGet deps k with
          | some w =>
            rw [hw] at hv
            simp at hv
            exact Or.inl (congrArg some hv)
          | none =>
            rw [hw] at hv
            simp only [Option.none_or] at hv
            obtain ⟨hk, hval⟩ := alistGet_single pkg (JVal.jstr "*") k v hv
            exact Or.inr ⟨rfl, hk, hval⟩
  | none =>
    have hm0 : alistGet (m ++ [("dependencies", MVal.tbl [])]) "dependencies" =
        some (.tbl []) := by
      rw [alistGet_append, hdep]
      unfold alistGet
      rw [List.find?_cons_of_pos _ (by simp)]
      rfl
    simp only [addPackageToManifest, hdep, Option.isSome_none,
      Bool.false_eq_true, if_false, hm0] at h
    have hnil : alistGet ([] : List (String × JVal)) pkg = none := rfl
    rw [hnil] at h
    simp only [Option.isSome_none, Bool.false_eq_true, if_false] at h
    cases h
    refine ⟨[], [(pkg, .jstr "*")], by simp [manifestDeps, hdep], ?_, ?_, ?_, ?_,
      by simp [alistGet]⟩
    · simp only [manifestDeps]
      rw [alistGet_alistSet_self]
      simp
    · intro k hk
      rw [alistGet_alistSet_ne _ "dependencies" _ k hk, alistGet_append]
      have h1 : alistGet [("dependencies", MVal.tbl [])] k = none := by
        unfold alistGet
        rw [List.find?_cons_of_neg _ (by simpa using fun hh : "dependencies" = k => hk hh.symm)]
        rfl
      rw [h1]
      cases alistGet m k <;> rfl
    · intro k v hv
      cases hv
    · intro k v hv
      obtain ⟨hk, hval⟩ := alistGet_single pkg (JVal.jstr "*") k v hv
      exact Or.inr ⟨rfl, hk, hval⟩

theorem addAllPackages_none (pkgs : List String) :
    pkgs.foldl
      (fun acc pkg => acc.bind
        (fun mm => (addPackageToManifest pkg mm).map (·.1)))
      (none : Option Manifest) = none := by
  induction pkgs with
  | nil => rfl
  | cons p ps ih => simpa using ih

/-- Frame and add-only specification of the whole manifest-add loop. -/
theorem addAllPackages_spec (pkgs : List String) (m m' : Manifest)
    (h : addAllPackages pkgs m = some m') :
    (∀ k, ¬ k = "dependencies" → alistGet m' k = alistGet m k) ∧
    (∀ deps deps', manifestDeps m = some deps → manifestDeps m' = some deps' →
      (∀ k v, alistGet deps k = some v → alistGet deps' k = some v) ∧
      (∀ k v, alistGet deps' k = some v → alistGet deps k = some v ∨
        (alistGet deps k = none ∧ v = .jstr "*"))) := by
  induction pkgs generalizing m with
  | nil =>
    unfold addAllPackages at h
    simp only [List.foldl_nil] at h
    cases h
    refine ⟨fun k _ => rfl, ?_⟩
    intro deps deps' hd hd'
    rw [hd] at hd'
    cases hd'
    exact ⟨fun k v hv => hv, fun k v hv => Or.inl hv⟩
  | cons p ps ih =>
    unfold addAllPackages at h
    rw [List.foldl_cons] at h
    simp only [Option.some_bind] at h
    cases hstep : addPackageToManifest p m with
    | none =>
      rw [hstep] at h
      simp only [Option.map_none'] at h
      rw [addAllPackages_none ps] at h
      cases h
    | some r =>
      obtain ⟨m1, added⟩ := r
      rw [hstep] at h
      simp only [Option.map_some'] at h
      have h' : addAllPackages ps m1 = some m' := h
      obtain ⟨deps0, deps1, hd0, hd1, hfr1, hpres1, hnew1, _⟩ :=
        addPackageToManifest_spec p m m1 added hstep
      obtain ⟨hfr2, hstep2⟩ := ih m1 h'
      refine ⟨?_, ?_⟩
      · intro k hk
        rw [hfr2 k hk, hfr1 k hk]
      · intro deps deps' hd hd'
        rw [hd0] at hd
        cases hd
        obtain ⟨hpres2, hnew2⟩ := hstep2 deps1 deps' hd1 hd'
        refine ⟨?_, ?_⟩
        · intro k v hv
          exact hpres2 k v (hpres1 k v hv)
        · intro k v hv
          rcases hnew2 k v hv with hv1 | ⟨hnone1, hstar⟩
          · rcases hnew1 k v hv1 with hv0 | ⟨hnone0, _, hstar0⟩
            · exact Or.inl hv0
            · exact Or.inr ⟨hnone0, hstar0⟩
          · cases hv0 : alistGet deps0 k with
            | none => exact Or.inr ⟨rfl, hstar⟩
            | some w =>
              have hc := hpres1 k w hv0
              rw [hc] at hnone1
              cases hnone1

theorem writeManifestAtomic_success_read (fs : FS) (p : FsPath) (m : Manifest)
    (_hne : ¬ withSuffixPath p ".tmp" = p) :
    (writeManifestAtomic fs p m WriteFaults.none).2.read p = some (.jmani m) := by
  have hrd : (fs.writeFile (withSuffixPath p ".tmp") (.jmani m)).read
      (withSuffixPath p ".tmp") = some (.jmani m) := by
    rw [read_writeFile]
    simp
  have hres : writeManifestAtomic fs p m WriteFaults.none =
      (none, (fs.writeFile (withSuffixPath p ".tmp") (.jmani m)).moveFile
        (withSuffixPath p ".tmp") p) := by
    unfold writeManifestAtomic WriteFaults.none
    simp only [Bool.false_eq_true, if_false]
    rw [hrd]
    simp [parseContent]
  rw [hres]
  exact read_moveFile_dst _ _ _ _ hrd

/-- C8: the install-time manifest mutation (the `add_package_to_manifest`
loop followed by `write_manifest_atomic`) leaves every top-level key other
than `dependencies` mapped to its original value, never removes or
overwrites an existing entry of the `dependencies` mapping — any entry not
present before is mapped to the wildcard marker `"*"` — and the file written
on success re-parses to exactly the mutated manifest. -/
theorem c8_manifest_frame (pkgs : List String) (m m' : Manifest)
    (h : addAllPackages pkgs m = some m') :
    (∀ k, ¬ k = "dependencies" → alistGet m' k = alistGet m k) ∧
    (∀ deps deps', manifestDeps m = some deps → manifestDeps m' = some deps' →
      (∀ k v, alistGet deps k = some v → alistGet deps' k = some v) ∧
      (∀ k v, alistGet deps' k = some v → alistGet deps k = some v ∨
        (alistGet deps k = none ∧ v = .jstr "*"))) ∧
    (∀ fs p, ¬ withSuffixPath p ".tmp" = p →
      (writeManifestAtomic fs p m' WriteFaults.none).2.read p =
        some (.jmani m')) := by
  obtain ⟨h1, h2⟩ := addAllPackages_spec pkgs m m' h
  exact ⟨h1, h2, fun fs p hne => writeManifestAtomic_success_read fs p m' hne⟩

/-- Witness for C8: adding `com.a.b.c` (already present) and `com.x.y.z`
(fresh) to the concrete manifest preserves the `name` key and the existing
pinned version, maps the new entry to `"*"`, and the atomic write stores the
mutated manifest. -/
theorem c8_witness :
    alistGet maniB' "name" = alistGet maniB "name" ∧
    alistGet [("com.a.b.c", JVal.jstr "1.0"), ("com.x.y.z", JVal.jstr "*")]
      "com.a.b.c" = some (.jstr "1.0") ∧
    (alistGet [("com.a.b.c", JVal.jstr "1.0")] "com.x.y.z" =
        some (.jstr "*") ∨
      (alistGet [("com.a.b.c", JVal.jstr "1.0")] "com.x.y.z" = none ∧
        JVal.jstr "*" = .jstr "*")) ∧
    (writeManifestAtomic fsA ["Packages", "manifest.json"] maniB'
      WriteFaults.none).2.read ["Packages", "manifest.json"] =
      some (.jmani maniB') := by
  have hmain := c8_manifest_frame ["com.a.b.c", "com.x.y.z"] maniB maniB'
    (by rfl)
  have hdeps := hmain.2.1 [("com.a.b.c", JVal.jstr "1.0")]
    [("com.a.b.c", JVal.jstr "1.0"), ("com.x.y.z", JVal.jstr "*")]
    (by rfl) (by rfl)
  exact ⟨hmain.1 "name" (by decide),
    hdeps.1 "com.a.b.c" (.jstr "1.0") (by rfl),
    hdeps.2 "com.x.y.z" (.jstr "*") (by rfl),
    hmain.2.2 fsA ["Packages", "manifest.json"] (by decide)⟩

/-! Lemmas about the dependency resolver. -/

theorem listUnion_nodup (a b : List String) (h : a.Nodup) :
    (listUnion a b).Nodup := by
  induction b generalizing a with
  | nil => exact h
  | cons x t ih =>
    unfold listUnion
    rw [List.foldl_cons]
    by_cases hx : a.contains x
    · rw [if_pos hx]
      exact ih a h
    · rw [if_neg hx]
      refine ih (a ++ [x]) ?_
      simp only [List.nodup_append]
      refine ⟨h, by simp, ?_⟩
      intro y hy hysing
      rw [List.mem_singleton.mp hysing] at hy
      exact hx (by simpa using hy)

theorem insertDesc_perm (x : ScoreQ × String) (l : List (ScoreQ × String)) :
    (insertDesc x l).Perm (x :: l) := by
  induction l with
  | nil => exact List.Perm.refl _
  | cons y t ih =>
    unfold insertDesc
    split
    · exact List.Perm.refl _
    · exact (List.Perm.cons y ih).trans (List.Perm.swap x y t)

theorem sortPairsDesc_perm (l : List (ScoreQ × String)) :
    (sortPairsDesc l).Perm l := by
  induction l with
  | nil => exact List.Perm.refl _
  | cons x t ih =>
    unfold sortPairsDesc
    rw [List.foldr_cons]
    exact (insertDesc_perm x _).trans (List.Perm.cons x (by
      unfold sortPairsDesc at ih
      exact ih))

theorem getCloseMatches_length (word : String) (poss : List String) (n : Nat)
    (cutoff : ScoreQ) : (getCloseMatches word poss n cutoff).length ≤ n := by
  unfold getCloseMatches
  rw [List.length_map]
  exact (List.length_take_le _ _)

theorem getCloseMatches_subset (word : String) (poss : List String) (n : Nat)
    (cutoff : ScoreQ) :
    ∀ y ∈ getCloseMatches word poss n cutoff, y ∈ poss := by
  intro y hy
  unfold getCloseMatches at hy
  rcases List.mem_map.mp hy with ⟨pr, hpr, hpr2⟩
  have hsorted : pr ∈ sortPairsDesc (poss.filterMap _) :=
    List.mem_of_mem_take hpr
  have hscored := (sortPairsDesc_perm _).mem_iff.mp hsorted
  rcases List.mem_filterMap.mp hscored with ⟨x, hx, hx2⟩
  dsimp only at hx2
  split at hx2
  · cases hx2
    rw [← hpr2]
    exact hx
  · cases hx2

theorem foldl_resolveStep_error (cat : List (String × String))
    (go : String → List String → List String → Except RErr RAcc)
    (loc : String) (ds : List String) (e : RErr) :
    ds.foldl (resolveStep cat go loc) (.error e) = .error e := by
  induction ds with
  | nil => rfl
  | cons d t ih =>
    rw [List.foldl_cons]
    exact ih

theorem foldl_resolveStep_notFound (cat : List (String × String))
    (go : String → List String → List String → Except RErr RAcc) (loc : String)
    (hgo : ∀ l v p e, go l v p = .error (.notFound e) →
      dependencyErrorShape cat e) :
    ∀ (ds : List String) (acc : Except RErr RAcc) (e : DepNotFound),
      (∀ e0, acc = .error (.notFound e0) → dependencyErrorShape cat e0) →
      ds.foldl (resolveStep cat go loc) acc = .error (.notFound e) →
      dependencyErrorShape cat e := by
  intro ds
  induction ds with
  | nil =>
    intro acc e hacc h
    rw [List.foldl_nil] at h
    exact hacc e h
  | cons d t ih =>
    intro acc e hacc h
    rw [List.foldl_cons] at h
    refine ih _ e ?_ h
    intro e0 hstep
    cases acc with
    | error er =>
      unfold resolveStep at hstep
      dsimp only at hstep
      cases hstep
      exact hacc e0 rfl
    | ok q =>
      obtain ⟨s, p, v, pr⟩ := q
      unfold resolveStep at hstep
      dsimp only at hstep
      cases hlk : alistGet cat d with
      | none =>
        rw [hlk] at hstep
        dsimp only at hstep
        cases hstep
        exact ⟨hlk, rfl⟩
      | some depLoc =>
        rw [hlk] at hstep
        dsimp only at hstep
        cases hgoRes : go depLoc v pr with
        | error er =>
          rw [hgoRes] at hstep
          dsimp only at hstep
          cases hstep
          exact hgo depLoc v pr e0 hgoRes
        | ok q1 =>
          obtain ⟨s1, p1, v1, pr1⟩ := q1
          rw [hgoRes] at hstep
          dsimp only at hstep
          cases hstep

theorem resolveGo_notFound_shape (cat : List (String × String))
    (descs : String → Option (List (List Char))) :
    ∀ fuel loc v p e, resolveGo cat descs fuel loc v p =
      .error (.notFound e) → dependencyErrorShape cat e := by
  intro fuel
  induction fuel with
  | zero =>
    intro loc v p e h
    simp only [resolveGo] at h
    cases h
  | succ f ih =>
    intro loc v p e h
    simp only [resolveGo] at h
    split at h
    · cases h
    · cases hp : parseDependenciesFile (descs loc) with
      | error er =>
        rw [hp] at h
        cases h
      | ok r =>
        obtain ⟨sd, pd⟩ := r
        rw [hp] at h
        refine foldl_resolveStep_notFound cat (resolveGo cat descs f) loc
          (fun l vv pp ee hh => ih l vv pp ee hh) _ _ e ?_ h
        intro e0 h0
        cases h0

theorem foldl_resolveStep_visited_mono (cat : List (String × String))
    (go : String → List String → List String → Except RErr RAcc) (loc : String)
    (hgo : ∀ l v p s1 p1 v1 pr1, go l v p = .ok (s1, p1, v1, pr1) →
      ∀ x ∈ v, x ∈ v1) :
    ∀ (ds : List String) (s0 p0 v0 pr0 : List String)
      (s' p' v' pr' : List String),
      ds.foldl (resolveStep cat go loc) (.ok (s0, p0, v0, pr0)) =
        .ok (s', p', v', pr') →
      ∀ x ∈ v0, x ∈ v' := by
  intro ds
  induction ds with
  | nil =>
    intro s0 p0 v0 pr0 s' p' v' pr' h
    rw [List.foldl_nil] at h
    cases h
    exact fun x hx => hx
  | cons d t ih =>
    intro s0 p0 v0 pr0 s' p' v' pr' h
    rw [List.foldl_cons] at h
    cases hlk : alistGet cat d with
    | none =>
      have hstep : resolveStep cat go loc (.ok (s0, p0, v0, pr0)) d =
          .error (.notFound ⟨d, loc,
            getCloseMatches d (cat.map (·.1)) 3 (3, 5)⟩) := by
        unfold resolveStep
        dsimp only
        rw [hlk]
      rw [hstep, foldl_resolveStep_error] at h
      cases h
    | some depLoc =>
      cases hgoRes : go depLoc v0 pr0 with
      | error er =>
        have hstep : resolveStep cat go loc (.ok (s0, p0, v0, pr0)) d =
            .error er := by
          unfold resolveStep
          dsimp only
          rw [hlk]
          dsimp only
          rw [hgoRes]
        rw [hstep, foldl_resolveStep_error] at h
        cases h
      | ok q1 =>
        obtain ⟨s1, p1, v1, pr1⟩ := q1
        have hstep : resolveStep cat go loc (.ok (s0, p0, v0, pr0)) d =
            .ok (listUnion s0 s1, listUnion p0 p1, v1, pr1) := by
          unfold resolveStep
          dsimp only
          rw [hlk]
          dsimp only
          rw [hgoRes]
        rw [hstep] at h
        intro x hx
        exact ih _ _ _ _ _ _ _ _ h x (hgo depLoc v0 pr0 s1 p1 v1 pr1 hgoRes x hx)

theorem resolveGo_visited_mono (cat : List (String × String))
    (descs : String → Option (List (List Char))) :
    ∀ fuel l v p s1 p1 v1 pr1,
      resolveGo cat descs fuel l v p = .ok (s1, p1, v1, pr1) →
      ∀ x ∈ v, x ∈ v1 := by
  intro fuel
  induction fuel with
  | zero =>
    intro l v p s1 p1 v1 pr1 h
    simp only [resolveGo] at h
    cases h
  | succ f ih =>
    intro l v p s1 p1 v1 pr1 h
    simp only [resolveGo] at h
    split at h
    · cases h
      exact fun x hx => hx
    · cases hp : parseDependenciesFile (descs l) with
      | error er =>
        rw [hp] at h
        cases h
      | ok r =>
        obtain ⟨sd, pd⟩ := r
        rw [hp] at h
        intro x hx
        exact foldl_resolveStep_visited_mono cat (resolveGo cat descs f) l
          (fun l' v' p' a b c dd hh => ih l' v' p' a b c dd hh) _ _ _ _ _ _ _ _ _
          h x (by simp [hx])

theorem alistGet_mem_values (cat : List (String × String)) (n l : String)
    (h : alistGet cat n = some l) : l ∈ cat.map (·.2) := by
  unfold alistGet at h
  cases hf : cat.find? (fun e => e.1 = n) with
  | none =>
    rw [hf] at h
    cases h
  | some e =>
    rw [hf] at h
    have hmem := List.mem_of_find?_eq_some hf
    simp only [Option.map_some'] at h
    cases h
    exact List.mem_map.mpr ⟨e, hmem, rfl⟩

theorem foldl_resolveStep_no_fuelOut (cat : List (String × String))
    (descs : String → Option (List (List Char))) (S : Finset String)
    (hrange : ∀ n l, alistGet cat n = some l → l ∈ S) (f : Nat)
    (ihgo : ∀ loc v p, loc ∈ S → (S \ v.toFinset).card + 1 ≤ f →
      resolveGo cat descs f loc v p ≠ .error .fuelOut) (loc : String) :
    ∀ (ds : List String) (acc : Except RErr RAcc),
      acc ≠ .error .fuelOut →
      (∀ s0 p0 v0 pr0, acc = .ok (s0, p0, v0, pr0) →
        (S \ v0.toFinset).card + 1 ≤ f) →
      ds.foldl (resolveStep cat (resolveGo cat descs f) loc) acc ≠
        .error .fuelOut := by
  intro ds
  induction ds with
  | nil =>
    intro acc hacc _ h
    rw [List.foldl_nil] at h
    exact hacc h
  | cons d t ih =>
    intro acc hacc hbound h
    rw [List.foldl_cons] at h
    cases acc with
    | error er =>
      have hstep : resolveStep cat (resolveGo cat descs f) loc (.error er) d =
          .error er := rfl
      rw [hstep, foldl_resolveStep_error] at h
      exact hacc h
    | ok q =>
      obtain ⟨s0, p0, v0, pr0⟩ := q
      have hb := hbound s0 p0 v0 pr0 rfl
      cases hlk : alistGet cat d with
      | none =>
        have hstep : resolveStep cat (resolveGo cat descs f) loc
            (.ok (s0, p0, v0, pr0)) d = .error (.notFound ⟨d, loc,
              getCloseMatches d (cat.map (·.1)) 3 (3, 5)⟩) := by
          unfold resolveStep
          dsimp only
          rw [hlk]
        rw [hstep, foldl_resolveStep_error] at h
        cases h
      | some depLoc =>
        have hdS : depLoc ∈ S := hrange d depLoc hlk
        cases hgoRes : resolveGo cat descs f depLoc v0 pr0 with
        | error er =>
          cases er with
          | fuelOut => exact ihgo depLoc v0 pr0 hdS hb hgoRes
          | malformed =>
            have hstep : resolveStep cat (resolveGo cat descs f) loc
                (.ok (s0, p0, v0, pr0)) d = .error .malformed := by
              unfold resolveStep
              dsimp only
              rw [hlk]
              dsimp only
              rw [hgoRes]
            rw [hstep, foldl_resolveStep_error] at h
            cases h
          | notFound e =>
            have hstep : resolveStep cat (resolveGo cat descs f) loc
                (.ok (s0, p0, v0, pr0)) d = .error (.notFound e) := by
              unfold resolveStep
              dsimp only
              rw [hlk]
              dsimp only
              rw [hgoRes]
            rw [hstep, foldl_resolveStep_error] at h
            cases h
        | ok q1 =>
          obtain ⟨s1, p1, v1, pr1⟩ := q1
          have hstep : resolveStep cat (resolveGo cat descs f) loc
              (.ok (s0, p0, v0, pr0)) d =
              .ok (listUnion s0 s1, listUnion p0 p1, v1, pr1) := by
            unfold resolveStep
            dsimp only
            rw [hlk]
            dsimp only
            rw [hgoRes]
          rw [hstep] at h
          refine ih _ (fun hh => Except.noConfusion hh) ?_ h
          intro s0' p0' v0' pr0' heq
          cases heq
          have hmono := resolveGo_visited_mono cat descs f depLoc v0 pr0 s1 p1
            v1 pr1 hgoRes
          have hsub : S \ v1.toFinset ⊆ S \ v0.toFinset := by
            intro x hx
            rw [Finset.mem_sdiff] at hx ⊢
            refine ⟨hx.1, fun hm => hx.2 ?_⟩
            rw [List.mem_toFinset] at hm ⊢
            exact hmono x hm
          have hcard := Finset.card_le_card hsub
          omega

theorem resolveGo_no_fuelOut (cat : List (String × String))
    (descs : String → Option (List (List Char))) (S : Finset String)
    (hrange : ∀ n l, alistGet cat n = some l → l ∈ S) :
    ∀ fuel loc v p, loc ∈ S → (S \ v.toFinset).card + 1 ≤ fuel →
      resolveGo cat descs fuel loc v p ≠ .error .fuelOut := by
  intro fuel
  induction fuel with
  | zero =>
    intro loc v p _ hcard
    omega
  | succ f ih =>
    intro loc v p hloc hcard h
    simp only [resolveGo] at h
    split at h
    · cases h
    · rename_i hvis
      cases hp : parseDependenciesFile (descs loc) with
      | error er =>
        rw [hp] at h
        cases h
      | ok r =>
        obtain ⟨sd, pd⟩ := r
        rw [hp] at h
        have hlocnotv : loc ∉ v := by
          intro hm
          exact hvis (by simpa using hm)
        have hlocmem : loc ∈ S \ v.toFinset := by
          rw [Finset.mem_sdiff, List.mem_toFinset]
          exact ⟨hloc, hlocnotv⟩
        have hsub : S \ (v ++ [loc]).toFinset ⊆ (S \ v.toFinset).erase loc := by
          intro x hx
          rw [Finset.mem_sdiff] at hx
          rw [Finset.mem_erase, Finset.mem_sdiff, List.mem_toFinset]
          have hx2 := hx.2
          rw [List.mem_toFinset] at hx2
          simp only [List.mem_append, List.mem_singleton] at hx2
          exact ⟨fun he => hx2 (Or.inr he), hx.1, fun hm => hx2 (Or.inl hm)⟩
        have hcard1 := Finset.card_le_card hsub
        have hcard2 := Finset.card_erase_of_mem hlocmem
        have hcard3 := Finset.card_pos.mpr ⟨loc, hlocmem⟩
        refine foldl_resolveStep_no_fuelOut cat descs S hrange f
          (fun l' v' p' hl hc => ih l' v' p' hl hc) loc _ _
          (fun hh => Except.noConfusion hh) ?_ h
        intro s0 p0 v0 pr0 heq
        cases heq
        omega

theorem foldl_resolveStep_inv (cat : List (String × String))
    (go : String → List String → List String → Except RErr RAcc) (loc : String)
    (hgo : ∀ l v p s1 p1 v1 pr1, go l v p = .ok (s1, p1, v1, pr1) →
      v.Nodup → p.Nodup → (∀ x ∈ p, x ∈ v) →
      v1.Nodup ∧ pr1.Nodup ∧ (∀ x ∈ pr1, x ∈ v1)) :
    ∀ (ds : List String) (s0 p0 v0 pr0 s' p' v' pr' : List String),
      ds.foldl (resolveStep cat go loc) (.ok (s0, p0, v0, pr0)) =
        .ok (s', p', v', pr') →
      s0.Nodup → p0.Nodup → v0.Nodup → pr0.Nodup → (∀ x ∈ pr0, x ∈ v0) →
      s'.Nodup ∧ p'.Nodup ∧ v'.Nodup ∧ pr'.Nodup ∧ (∀ x ∈ pr', x ∈ v') := by
  intro ds
  induction ds with
  | nil =>
    intro s0 p0 v0 pr0 s' p' v' pr' h hs hp hv hpr hsub
    rw [List.foldl_nil] at h
    cases h
    exact ⟨hs, hp, hv, hpr, hsub⟩
  | cons d t ih =>
    intro s0 p0 v0 pr0 s' p' v' pr' h hs hp hv hpr hsub
    rw [List.foldl_cons] at h
    cases hlk : alistGet cat d with
    | none =>
      have hstep : resolveStep cat go loc (.ok (s0, p0, v0, pr0)) d =
          .error (.notFound ⟨d, loc,
            getCloseMatches d (cat.map (·.1)) 3 (3, 5)⟩) := by
        unfold resolveStep
        dsimp only
        rw [hlk]
      rw [hstep, foldl_resolveStep_error] at h
      cases h
    | some depLoc =>
      cases hgoRes : go depLoc v0 pr0 with
      | error er =>
        have hstep : resolveStep cat go loc (.ok (s0, p0, v0, pr0)) d =
            .error er := by
          unfold resolveStep
          dsimp only
          rw [hlk]
          dsimp only
          rw [hgoRes]
        rw [hstep, foldl_resolveStep_error] at h
        cases h
      | ok q1 =>
        obtain ⟨s1, p1, v1, pr1⟩ := q1
        have hstep : resolveStep cat go loc (.ok (s0, p0, v0, pr0)) d =
            .ok (listUnion s0 s1, listUnion p0 p1, v1, pr1) := by
          unfold resolveStep
          dsimp only
          rw [hlk]
          dsimp only
          rw [hgoRes]
        rw [hstep] at h
        obtain ⟨hv1, hpr1, hsub1⟩ :=
          hgo depLoc v0 pr0 s1 p1 v1 pr1 hgoRes hv hpr hsub
        exact ih _ _ _ _ _ _ _ _ h (listUnion_nodup s0 s1 hs)
          (listUnion_nodup p0 p1 hp) hv1 hpr1 hsub1

theorem resolveGo_inv (cat : List (String × String))
    (descs : String → Option (List (List Char))) :
    ∀ fuel l v p s1 p1 v1 pr1,
      resolveGo cat descs fuel l v p = .ok (s1, p1, v1, pr1) →
      v.Nodup → p.Nodup → (∀ x ∈ p, x ∈ v) →
      s1.Nodup ∧ p1.Nodup ∧ v1.Nodup ∧ pr1.Nodup ∧ (∀ x ∈ pr1, x ∈ v1) := by
  intro fuel
  induction fuel with
  | zero =>
    intro l v p s1 p1 v1 pr1 h
    simp only [resolveGo] at h
    cases h
  | succ f ih =>
    intro l v p s1 p1 v1 pr1 h hv hp hsub
    simp only [resolveGo] at h
    split at h
    · cases h
      exact ⟨List.nodup_nil, List.nodup_nil, hv, hp, hsub⟩
    · rename_i hvis
      cases hpf : parseDependenciesFile (descs l) with
      | error er =>
        rw [hpf] at h
        cases h
      | ok r =>
        obtain ⟨sd, pd⟩ := r
        rw [hpf] at h
        have hlocnotv : l ∉ v := fun hm => hvis (by simpa using hm)
        have hlocnotp : l ∉ p := fun hm => hlocnotv (hsub l hm)
        refine foldl_resolveStep_inv cat (resolveGo cat descs f) l
          (fun l' v' p' a b c dd hh h1 h2 h3 =>
            ((ih l' v' p' a b c dd hh h1 h2 h3).2.2))
          _ _ _ _ _ _ _ _ _ h (by simp)
          (listUnion_nodup [] _ (by simp)) ?_ ?_ ?_
        · simp only [List.nodup_append]
          exact ⟨hv, by simp, by
            intro y hy hysing
            rw [List.mem_singleton.mp hysing] at hy
            exact hlocnotv hy⟩
        · simp only [List.nodup_append]
          exact ⟨hp, by simp, by
            intro y hy hysing
            rw [List.mem_singleton.mp hysing] at hy
            exact hlocnotp hy⟩
        · intro x hx
          simp only [List.mem_append, List.mem_singleton] at hx ⊢
          rcases hx with hx | hx
          · exact Or.inl (hsub x hx)
          · exact Or.inr hx

/-- C3: `resolve_script_dependencies` terminates on every catalog (the
embedding's fuel is never exhausted), visits each location at most once —
the descriptor-parse log and the visited set are duplicate-free, as are the
returned script and package sets; concretely, resolving the `A`-`B` cycle
yields exactly `{A, B}`, and resolving the `A/{B,C}/D` diamond yields
exactly `{A, B, C, D}` with `D`'s descriptor parsed once. -/
theorem c3_resolution_terminates_and_dedups :
    (∀ (cat : List (String × String)) descs loc,
      resolveScriptDependencies cat descs loc ≠ .error .fuelOut) ∧
    (∀ (cat : List (String × String)) descs loc s p v pr,
      resolveScriptDependencies cat descs loc = .ok (s, p, v, pr) →
      s.Nodup ∧ p.Nodup ∧ v.Nodup ∧ pr.Nodup) ∧
    resolveScriptDependencies catCyc descsCyc "A" =
      .ok (["A", "B"], [], ["A", "B"], ["A", "B"]) ∧
    resolveScriptDependencies catDia descsDia "A" =
      .ok (["A", "B", "D", "C"], [], ["A", "B", "D", "C"],
        ["A", "B", "D", "C"]) ∧
    (["A", "B", "D", "C"] : List String).count "D" = 1 := by
  refine ⟨?_, ?_, by rfl, by rfl, by rfl⟩
  · intro cat descs loc
    have hrange : ∀ n l, alistGet cat n = some l →
        l ∈ insert loc (cat.map (·.2)).toFinset := by
      intro n l h
      exact Finset.mem_insert.mpr (Or.inr (List.mem_toFinset.mpr
        (alistGet_mem_values cat n l h)))
    refine resolveGo_no_fuelOut cat descs (insert loc (cat.map (·.2)).toFinset)
      hrange (resolverFuel cat) loc [] [] (Finset.mem_insert_self _ _) ?_
    have h1 : ((insert loc (cat.map (·.2)).toFinset) \
        ([] : List String).toFinset).card = (insert loc
          (cat.map (·.2)).toFinset).card := by
      simp
    rw [h1]
    have h2 := Finset.card_insert_le loc (cat.map (·.2)).toFinset
    have h3 := List.toFinset_card_le (cat.map (·.2))
    rw [List.length_map] at h3
    unfold resolverFuel
    omega
  · intro cat descs loc s p v pr h
    have hres := resolveGo_inv cat descs (resolverFuel cat) loc [] [] s p v pr
      h (by simp) (by simp) (by simp)
    exact ⟨hres.1, hres.2.1, hres.2.2.1, hres.2.2.2.1⟩

/-- Witness for C3: the resolver guarantees instantiated at the concrete
cycle catalog. -/
theorem c3_witness :
    resolveScriptDependencies catCyc descsCyc "A" ≠ .error .fuelOut ∧
    ((["A", "B"] : List String).Nodup ∧ ([] : List String).Nodup ∧
      (["A", "B"] : List String).Nodup ∧ (["A", "B"] : List String).Nodup) := by
  exact ⟨c3_resolution_terminates_and_dedups.1 catCyc descsCyc "A",
    c3_resolution_terminates_and_dedups.2.1 catCyc descsCyc "A"
      ["A", "B"] [] ["A", "B"] ["A", "B"] (by rfl)⟩

/-- C6: every `DependencyNotFoundError` raised during resolution names a
script absent from the catalog together with its requesting package, and
carries `difflib.get_close_matches`'s suggestions over the catalog's name
set — at most three, all catalog names; concretely, resolving `bar` (which
requires the undefined `foox`) against a catalog containing `foo` fails with
an error naming `foox`, requested by `bar`, whose suggestion list is exactly
`["foo"]`. -/
theorem c6_missing_dependency_diagnostics :
    (∀ (cat : List (String × String)) descs fuel loc v p e,
      resolveGo cat descs fuel loc v p = .error (.notFound e) →
      alistGet cat e.depName = none ∧
      e.suggestions = getCloseMatches e.depName (cat.map (·.1)) 3 (3, 5) ∧
      e.suggestions.length ≤ 3 ∧ (∀ x ∈ e.suggestions, x ∈ cat.map (·.1))) ∧
    resolveScriptDependencies catMiss descsMiss "bar" =
      .error (.notFound ⟨"foox", "bar", ["foo"]⟩) := by
  refine ⟨?_, by rfl⟩
  intro cat descs fuel loc v p e h
  obtain ⟨h1, h2⟩ := resolveGo_notFound_shape cat descs fuel loc v p e h
  refine ⟨h1, h2, ?_, ?_⟩
  · rw [h2]
    exact getCloseMatches_length _ _ _ _
  · rw [h2]
    exact getCloseMatches_subset _ _ _ _

/-- Witness for C6: the diagnostics guarantees instantiated at the concrete
`foox` failure: `foox` is not in the catalog, the suggestion list is
`difflib`'s output, has at most three entries, and its entry `foo` is a
catalog name. -/
theorem c6_witness :
    alistGet catMiss "foox" = none ∧
    (["foo"] : List String) =
      getCloseMatches "foox" (catMiss.map (·.1)) 3 (3, 5) ∧
    (["foo"] : List String).length ≤ 3 ∧
    "foo" ∈ catMiss.map (·.1) := by
  have h := c6_missing_dependency_diagnostics.1 catMiss descsMiss
    (resolverFuel catMiss) "bar" [] [] ⟨"foox", "bar", ["foo"]⟩ (by rfl)
  exact ⟨h.1, h.2.1, h.2.2.1, h.2.2.2 "foo" (by decide)⟩

/-! Lemmas about the instrumented transaction body of `cmd_add_scripts`. -/

theorem checkpoint_dead (st : BodySt) (h : st.alive = false) :
    checkpoint st = st := by
  simp [checkpoint, h]

theorem checkpoint_frame (st : BodySt) :
    (checkpoint st).fs = st.fs ∧ (checkpoint st).txn = st.txn ∧
    (checkpoint st).manifest = st.manifest ∧
    (checkpoint st).commits = st.commits ∧
    (checkpoint st).writes = st.writes ∧
    (checkpoint st).addedCount = st.addedCount := by
  unfold checkpoint
  split_ifs <;> exact ⟨rfl, rfl, rfl, rfl, rfl, rfl⟩

theorem loadStep_dead (st : BodySt) (h : st.alive = false) :
    loadStep st = st := by
  simp [loadStep, checkpoint_dead st h, h]

theorem addStep_dead (st : BodySt) (pkg : String) (h : st.alive = false) :
    addStep st pkg = st := by
  simp [addStep, checkpoint_dead st h, h]

theorem writeStep_dead (p : List String) (st : BodySt) (h : st.alive = false) :
    writeStep p st = st := by
  by_cases he : p.isEmpty
  · simp [writeStep, he]
  · simp [writeStep, he, checkpoint_dead st h, h]

theorem copyFileStep_dead (d : FsPath) (ay : Bool) (ans : FsPath → Bool)
    (st : BodySt) (f : FsPath × String) (h : st.alive = false) :
    copyFileStep d ay ans st f = st := by
  simp [copyFileStep, checkpoint_dead st h, h]

theorem commitStep_dead (st : BodySt) (h : st.alive = false) :
    commitStep st = st := by
  simp [commitStep, checkpoint_dead st h, h]

theorem foldl_copyFile_dead (d : FsPath) (ay : Bool) (ans : FsPath → Bool)
    (l : List (FsPath × String)) (st : BodySt) (h : st.alive = false) :
    l.foldl (copyFileStep d ay ans) st = st := by
  induction l with
  | nil => rfl
  | cons a t ih => rw [List.foldl_cons, copyFileStep_dead d ay ans st a h]; exact ih

theorem copyPkgStep_dead (d : FsPath) (ay : Bool) (ans : FsPath → Bool)
    (st : BodySt) (p : PkgSrc) (h : st.alive = false) :
    copyPkgStep d ay ans st p = st :=
  foldl_copyFile_dead d ay ans (filesToCopy p) st h

theorem foldl_copyPkg_dead (d : FsPath) (ay : Bool) (ans : FsPath → Bool)
    (l : List PkgSrc) (st : BodySt) (h : st.alive = false) :
    l.foldl (copyPkgStep d ay ans) st = st := by
  induction l with
  | nil => rfl
  | cons a t ih => rw [List.foldl_cons, copyPkgStep_dead d ay ans st a h]; exact ih

theorem loadStep_frame (st : BodySt) :
    (loadStep st).txn = st.txn ∧ (loadStep st).commits = st.commits ∧
    (loadStep st).writes = st.writes ∧
    (loadStep st).addedCount = st.addedCount := by
  obtain ⟨-, htxn, -, hcom, hwr, had⟩ := checkpoint_frame st
  simp only [loadStep]
  split_ifs
  · split
    · exact ⟨htxn, hcom, hwr, had⟩
    · exact ⟨htxn, hcom, hwr, had⟩
  · exact ⟨htxn, hcom, hwr, had⟩
  · exact ⟨htxn, hcom, hwr, had⟩

theorem addStep_frame (st : BodySt) (pkg : String) :
    (addStep st pkg).txn = st.txn ∧ (addStep st pkg).commits = st.commits ∧
    (addStep st pkg).writes = st.writes := by
  obtain ⟨-, htxn, -, hcom, hwr, -⟩ := checkpoint_frame st
  simp only [addStep]
  split_ifs
  · split
    · exact ⟨htxn, hcom, hwr⟩
    · exact ⟨htxn, hcom, hwr⟩
  · exact ⟨htxn, hcom, hwr⟩

theorem foldl_addStep_frame (l : List String) (st : BodySt) :
    (l.foldl addStep st).txn = st.txn ∧
    (l.foldl addStep st).commits = st.commits ∧
    (l.foldl addStep st).writes = st.writes := by
  induction l generalizing st with
  | nil => exact ⟨rfl, rfl, rfl⟩
  | cons a t ih =>
    obtain ⟨h1, h2, h3⟩ := ih (addStep st a)
    obtain ⟨g1, g2, g3⟩ := addStep_frame st a
    exact ⟨h1.trans g1, h2.trans g2, h3.trans g3⟩

theorem writeStep_frame (p : List String) (st : BodySt) :
    (writeStep p st).txn = st.txn ∧ (writeStep p st).commits = st.commits ∧
    (writeStep p st).addedCount = st.addedCount := by
  obtain ⟨-, htxn, -, hcom, -, had⟩ := checkpoint_frame st
  simp only [writeStep]
  split_ifs
  · exact ⟨rfl, rfl, rfl⟩
  · split
    · exact ⟨htxn, hcom, had⟩
    · exact ⟨htxn, hcom, had⟩
  · exact ⟨htxn, hcom, had⟩

theorem writeStep_writes_le (p : List String) (st : BodySt) :
    (writeStep p st).writes ≤ st.writes + 1 := by
  obtain ⟨-, -, -, -, hwr, -⟩ := checkpoint_frame st
  simp only [writeStep]
  split_ifs
  · exact Nat.le_succ _
  · split
    · simp [hwr]
    · simp [hwr]
  · exact hwr.le.trans (Nat.le_succ _)

theorem writeStep_empty (p : List String) (st : BodySt) (h : p.isEmpty = true) :
    writeStep p st = st := by
  simp only [writeStep]
  rw [if_pos h]

theorem writeStep_alive (p : List String) (st : BodySt)
    (hne : p.isEmpty = false) (h : (writeStep p st).alive = true) :
    (writeStep p st).writes = st.writes + 1 := by
  obtain ⟨-, -, -, -, hwr, -⟩ := checkpoint_frame st
  simp only [writeStep] at h ⊢
  rw [if_neg (by simp [hne])] at h ⊢
  by_cases ha : (checkpoint st).alive = true
  · rw [if_neg (by simp [ha])] at h ⊢
    rcases hwm : writeManifestAtomic (checkpoint st).fs
        (checkpoint st).txn.manifestPath (checkpoint st).manifest
        WriteFaults.none with ⟨o, fs2⟩
    cases o
    · dsimp only at h ⊢
      rw [hwr]
    · dsimp only at h ⊢
      rw [hwr]
  · rw [if_pos ha] at h
    exact absurd h ha

theorem trackDir_committed (t : Txn) (d : FsPath) :
    (t.trackDir d).committed = t.committed := by
  unfold Txn.trackDir
  split_ifs <;> rfl

theorem foldl_trackDir_committed (l : List FsPath) (t : Txn) :
    (l.foldl Txn.trackDir t).committed = t.committed := by
  induction l generalizing t with
  | nil => rfl
  | cons a r ih => rw [List.foldl_cons, ih, trackDir_committed]

theorem copyFileStep_frame (d : FsPath) (ay : Bool) (ans : FsPath → Bool)
    (st : BodySt) (f : FsPath × String) :
    (copyFileStep d ay ans st f).commits = st.commits ∧
    (copyFileStep d ay ans st f).writes = st.writes ∧
    (copyFileStep d ay ans st f).txn.committed = st.txn.committed := by
  obtain ⟨-, htxn, -, hcom, hwr, -⟩ := checkpoint_frame st
  have htc : (checkpoint st).txn.committed = st.txn.committed :=
    congrArg Txn.committed htxn
  simp only [copyFileStep]
  split_ifs <;> (try split) <;>
    simp_all [Txn.trackFile, foldl_trackDir_committed]

theorem foldl_copyFile_frame (d : FsPath) (ay : Bool) (ans : FsPath → Bool)
    (l : List (FsPath × String)) (st : BodySt) :
    (l.foldl (copyFileStep d ay ans) st).commits = st.commits ∧
    (l.foldl (copyFileStep d ay ans) st).writes = st.writes ∧
    (l.foldl (copyFileStep d ay ans) st).txn.committed = st.txn.committed := by
  induction l generalizing st with
  | nil => exact ⟨rfl, rfl, rfl⟩
  | cons a t ih =>
    obtain ⟨h1, h2, h3⟩ := ih (copyFileStep d ay ans st a)
    obtain ⟨g1, g2, g3⟩ := copyFileStep_frame d ay ans st a
    exact ⟨h1.trans g1, h2.trans g2, h3.trans g3⟩

theorem copyPkgStep_frame (d : FsPath) (ay : Bool) (ans : FsPath → Bool)
    (st : BodySt) (p : PkgSrc) :
    (copyPkgStep d ay ans st p).commits = st.commits ∧
    (copyPkgStep d ay ans st p).writes = st.writes ∧
    (copyPkgStep d ay ans st p).txn.committed = st.txn.committed :=
  foldl_copyFile_frame d ay ans (filesToCopy p) st

theorem foldl_copyPkg_frame (d : FsPath) (ay : Bool) (ans : FsPath → Bool)
    (l : List PkgSrc) (st : BodySt) :
    (l.foldl (copyPkgStep d ay ans) st).commits = st.commits ∧
    (l.foldl (copyPkgStep d ay ans) st).writes = st.writes ∧
    (l.foldl (copyPkgStep d ay ans) st).txn.committed = st.txn.committed := by
  induction l generalizing st with
  | nil => exact ⟨rfl, rfl, rfl⟩
  | cons a t ih =>
    obtain ⟨h1, h2, h3⟩ := ih (copyPkgStep d ay ans st a)
    obtain ⟨g1, g2, g3⟩ := copyPkgStep_frame d ay ans st a
    exact ⟨h1.trans g1, h2.trans g2, h3.trans g3⟩

theorem commitStep_writes (st : BodySt) :
    (commitStep st).writes = st.writes := by
  obtain ⟨-, -, -, -, hwr, -⟩ := checkpoint_frame st
  simp only [commitStep]
  split_ifs
  · exact hwr
  · exact hwr

theorem commitStep_spec (st : BodySt) :
    ((checkpoint st).alive = false → commitStep st = checkpoint st) ∧
    ((checkpoint st).alive = true →
      (commitStep st).alive = true ∧
      (commitStep st).commits = st.commits + 1 ∧
      (commitStep st).txn.committed = true) := by
  obtain ⟨-, -, -, hcom, -, -⟩ := checkpoint_frame st
  constructor
  · intro h
    simp only [commitStep]
    rw [if_pos (by simp [h])]
  · intro h
    simp only [commitStep]
    rw [if_neg (by simp [h])]
    exact ⟨h, by rw [hcom], rfl⟩

theorem runBody_anatomy (env : InstallEnv) (fs0 : FS) (failAt : Option Nat) :
    ∃ s2 s4 : BodySt,
      runBody env fs0 failAt = commitStep s4 ∧
      s4 = env.scriptsSorted.foldl
        (copyPkgStep env.targetDir env.assumeYes env.overwriteAns)
        (writeStep env.packagesSorted s2) ∧
      s2.writes = 0 ∧ s2.commits = 0 ∧ s2.txn.committed = false := by
  refine ⟨env.packagesSorted.foldl addStep (loadStep
      { fs := enterTxn fs0 (Txn.mk0 env.manifestPath),
        txn := Txn.mk0 env.manifestPath, manifest := [], alive := true,
        idx := 0, failAt := failAt, commits := 0, writes := 0,
        addedCount := 0 }), _, rfl, rfl, ?_, ?_, ?_⟩
  · exact (foldl_addStep_frame _ _).2.2.trans (loadStep_frame _).2.2.1
  · exact (foldl_addStep_frame _ _).2.1.trans (loadStep_frame _).2.1
  · exact congrArg Txn.committed
      (((foldl_addStep_frame _ _).1).trans (loadStep_frame _).1)

/-- C4: for every run of the `with InstallationTransaction` scope of
`cmd_add_scripts` (over any environment, any starting filesystem and any
injected fault), if the scope exits without `commit()` having run — which in
this body happens exactly when an exception is in flight — then `commit` was
called zero times, the `committed` flag is still false, and `__exit__`
performs the full rollback (`rollbackFS`: manifest restore, then tracked
files undone in reverse order, then tracked directories removed deepest
first); on a full success the transaction commits exactly once and `__exit__`
leaves the filesystem untouched. -/
theorem c4_scope_exit_semantics (env : InstallEnv) (fs0 : FS)
    (failAt : Option Nat) (st : BodySt) (hst : st = runBody env fs0 failAt) :
    (st.alive = false →
      st.commits = 0 ∧ st.txn.committed = false ∧
      (runInstall env fs0 failAt).1 = rollbackFS st.fs st.txn) ∧
    (st.alive = true →
      st.commits = 1 ∧ st.txn.committed = true ∧
      (runInstall env fs0 failAt).1 = st.fs) := by
  obtain ⟨s2, s4, hrb, hs4, hw2, hc2, hcm2⟩ := runBody_anatomy env fs0 failAt
  have hfold := foldl_copyPkg_frame env.targetDir env.assumeYes env.overwriteAns
    env.scriptsSorted (writeStep env.packagesSorted s2)
  have hws := writeStep_frame env.packagesSorted s2
  have hc4 : s4.commits = 0 := by
    rw [hs4, hfold.1, hws.2.1, hc2]
  have hcm4 : s4.txn.committed = false := by
    rw [hs4, hfold.2.2, congrArg Txn.committed hws.1, hcm2]
  have hri : (runInstall env fs0 failAt).1 =
      (exitTxn (¬ (runBody env fs0 failAt).alive)
        (runBody env fs0 failAt).fs (runBody env fs0 failAt).txn).1 := rfl
  have hspec := commitStep_spec s4
  subst hst
  rw [hrb, hri, hrb]
  by_cases hca : (checkpoint s4).alive = true
  · obtain ⟨hal, hcm, hcomt⟩ := hspec.2 hca
    constructor
    · intro h
      rw [hal] at h
      exact absurd h (by decide)
    · intro _
      refine ⟨by rw [hcm, hc4], hcomt, ?_⟩
      simp [exitTxn, hal]
  · have hcf : (checkpoint s4).alive = false := by simpa using hca
    have heq : commitStep s4 = checkpoint s4 := hspec.1 hcf
    have htx : (checkpoint s4).txn = s4.txn := (checkpoint_frame s4).2.1
    have hccm : (checkpoint s4).txn.committed = false := by
      rw [htx]; exact hcm4
    constructor
    · intro _
      refine ⟨?_, ?_, ?_⟩
      · rw [heq, (checkpoint_frame s4).2.2.2.1]; exact hc4
      · rw [heq]; exact hccm
      · rw [heq]
        simp [exitTxn, hcf, hccm]
    · intro h
      rw [heq, hcf] at h
      exact absurd h (by decide)

/-- Witness for C4: over the concrete environment `envA` and filesystem
`fsA`, a fault injected before the very first body action aborts the scope
with zero commits, an uncommitted transaction, and a rolled-back filesystem,
while the fault-free run commits exactly once, sets the `committed` flag and
leaves `__exit__` a no-op. -/
theorem c4_witness :
    ((runBody envA fsA (some 0)).commits = 0 ∧
      (runBody envA fsA (some 0)).txn.committed = false ∧
      (runInstall envA fsA (some 0)).1 =
        rollbackFS (runBody envA fsA (some 0)).fs
          (runBody envA fsA (some 0)).txn) ∧
    ((runBody envA fsA none).commits = 1 ∧
      (runBody envA fsA none).txn.committed = true ∧
      (runInstall envA fsA none).1 = (runBody envA fsA none).fs) :=
  ⟨(c4_scope_exit_semantics envA fsA (some 0)
      (runBody envA fsA (some 0)) rfl).1 (by rfl),
   (c4_scope_exit_semantics envA fsA none
      (runBody envA fsA none) rfl).2 (by rfl)⟩

/-- C5 counterexample: the body writes the manifest whenever the resolved
set of external identifiers is nonempty, even when every one of them was
already present, so nothing was actually added.  Concretely, installing
`envB`'s single identifier over `fsB` (whose manifest already lists it)
performs one manifest write with zero additions, on a fully successful run. -/
theorem c5_write_despite_no_addition :
    (runBody envB fsB none).writes = 1 ∧
    (runBody envB fsB none).addedCount = 0 ∧
    (runBody envB fsB none).alive = true :=
  ⟨rfl, rfl, rfl⟩

/-- C5 (amended): during `cmd_add_scripts` the manifest file is written at
most once; it is never written when the resolved identifier set is empty; and
on a run that never raises it is written exactly once when that set is
nonempty — regardless of whether any identifier was actually added. -/
theorem c5_manifest_write_discipline (env : InstallEnv) (fs0 : FS)
    (failAt : Option Nat) (st : BodySt) (hst : st = runBody env fs0 failAt) :
    st.writes ≤ 1 ∧
    (env.packagesSorted.isEmpty = true → st.writes = 0) ∧
    (st.alive = true →
      st.writes = if env.packagesSorted.isEmpty then 0 else 1) := by
  obtain ⟨s2, s4, hrb, hs4, hw2, hc2, hcm2⟩ := runBody_anatomy env fs0 failAt
  have hfold := foldl_copyPkg_frame env.targetDir env.assumeYes env.overwriteAns
    env.scriptsSorted (writeStep env.packagesSorted s2)
  have h4w : s4.writes = (writeStep env.packagesSorted s2).writes := by
    rw [hs4]; exact hfold.2.1
  subst hst
  rw [hrb]
  have hcw : (commitStep s4).writes = s4.writes := commitStep_writes s4
  refine ⟨?_, ?_, ?_⟩
  · rw [hcw, h4w]
    have := writeStep_writes_le env.packagesSorted s2
    rw [hw2] at this
    exact this
  · intro he
    rw [hcw, h4w, writeStep_empty _ _ he]
    exact hw2
  · intro hal
    have h4a : s4.alive = true := by
      by_contra hneg
      have h4f : s4.alive = false := by simpa using hneg
      rw [commitStep_dead s4 h4f, h4f] at hal
      exact absurd hal (by decide)
    have h3a : (writeStep env.packagesSorted s2).alive = true := by
      by_contra hneg
      have h3f : (writeStep env.packagesSorted s2).alive = false := by
        simpa using hneg
      have h43 : s4 = writeStep env.packagesSorted s2 := by
        rw [hs4]
        exact foldl_copyPkg_dead _ _ _ _ _ h3f
      rw [h43, h3f] at h4a
      exact absurd h4a (by decide)
    by_cases he : env.packagesSorted.isEmpty = true
    · rw [if_pos he, hcw, h4w, writeStep_empty _ _ he]
      exact hw2
    · have hne : env.packagesSorted.isEmpty = false := by simpa using he
      rw [if_neg he, hcw, h4w, writeStep_alive _ _ hne h3a, hw2]

/-- Witness for C5 (amended): the fault-free `envA` run over `fsA` performs
at most one manifest write, and — its identifier set being nonempty and the
run successful — exactly one. -/
theorem c5_witness :
    (runBody envA fsA none).writes ≤ 1 ∧
    (runBody envA fsA none).writes = 1 := by
  have h := c5_manifest_write_discipline envA fsA none
    (runBody envA fsA none) rfl
  refine ⟨h.1, ?_⟩
  have h2 := h.2.2 (by rfl)
  simpa [envA] using h2

end USL
